import Mathlib

/-!
# Verification of the generalized-leaper shortest-path program

Shallow embedding of `src/main.rs`: a generalized knight ("leaper")
`Ability(a, b)` moves by combining its two magnitudes with the four sign
directions; `find_shortest_path` is a breadth-first search from `start` to
`goal` where the `goal` corner doubles as the board boundary; `run n`
collects, for every pair `1 ≤ r ≤ c < n`, the step count of the shortest
path from `(1,1)` to `(n,n)`, and `Reports.finalize` folds the triangular
report stream into a full symmetric matrix.

Rust `i32` values are modelled as `Int` (no arithmetic here approaches
`i32` bounds: coordinates stay within `[-25, 50]` and indices within
`[0, 625]`).  The two internal panic points (the `unwrap` / potential
non-termination in `Path::new`, and the `panic!("no item")` in
`Reports.finalize`) are modelled as `Option.none`; `run`'s `InvalidInput`
error is also `none` at its own level.
-/

namespace Knights

/-- A board position `(row, col)`, 1-indexed, as in Rust's `Position(i32, i32)`. -/
abbrev Pos := Int × Int

/-- A concrete move offset `(Δrow, Δcol)`, as in Rust's `Move(i32, i32)`. -/
abbrev Move := Int × Int

/-- `const DIRECTIONS: &[(i32, i32)] = &[(1, 1), (1, -1), (-1, 1), (-1, -1)]`. -/
def DIRECTIONS : List (Int × Int) := [(1, 1), (1, -1), (-1, 1), (-1, -1)]

/-- `struct Ability(i32, i32)` — the leaper's two move magnitudes. -/
structure Ability where
  a : Int
  b : Int
deriving DecidableEq, Repr

/-- `Ability::reverse` — swap the two magnitudes. -/
def Ability.reverse (k : Ability) : Ability := ⟨k.b, k.a⟩

/-- `Move::new(knight, direction) = Move(knight.0 * direction.0, knight.1 * direction.1)`. -/
def Move.new (k : Ability) (d : Int × Int) : Move := (k.a * d.1, k.b * d.2)

/-- `Ability::moves` — the four directions applied to the magnitudes; when the
magnitudes differ, also the axis-swapped (`reverse`) variants. -/
def Ability.moves (k : Ability) : List Move :=
  if k.a = k.b then DIRECTIONS.map (fun d => Move.new k d)
  else DIRECTIONS.map (fun d => Move.new k d) ++ DIRECTIONS.map (fun d => Move.new k.reverse d)

/-- `Position::is_valid` — both coordinates within `[1, board_size]`. -/
def Position.is_valid (p : Pos) (board_size : Pos) : Bool :=
  decide (1 ≤ p.1) && decide (1 ≤ p.2) && decide (p.1 ≤ board_size.1) && decide (p.2 ≤ board_size.2)

/-- `Position::try_from` — `some` iff the candidate position is valid. -/
def Position.try_from (rc : Int × Int) (board_size : Pos) : Option Pos :=
  if Position.is_valid rc board_size then some rc else none

/-- `Ability::valid_moves` — apply every offset to `current`, keep the valid results. -/
def Ability.valid_moves (k : Ability) (current : Pos) (board_size : Pos) : List Pos :=
  k.moves.filterMap (fun mv => Position.try_from (current.1 + mv.1, current.2 + mv.2) board_size)

/-- First-match lookup in the parents association list (Rust `HashMap::get`;
keys are inserted at most once, and the model prepends, so first match is the
latest insertion). -/
def lookupPos : List (Pos × Pos) → Pos → Option Pos
  | [], _ => none
  | (key, val) :: rest, x => if key = x then some val else lookupPos rest x

/-- The backtracking loop of `Path::new`: walk the parents map from `current`
back to `start`, accumulating positions.  Fuel models the Rust `while` loop
(which diverges on a cyclic map and panics on a missing key — both `none`
here, and both proved unreachable for BFS-produced maps). -/
def backtrack (parents : List (Pos × Pos)) (start : Pos) :
    Nat → Pos → List Pos → Option (List Pos)
  | 0, _, _ => none
  | fuel + 1, current, path =>
    if current = start then some path
    else
      match lookupPos parents current with
      | none => none
      | some p => backtrack parents start fuel p (path ++ [p])

/-- `Path::new` — build `[goal, parent, …, start]` and reverse it. -/
def Path.new (start goal : Pos) (parents : List (Pos × Pos)) : Option (List Pos) :=
  (backtrack parents start (parents.length + 1) goal [goal]).map List.reverse

/-- `Path::empty`. -/
def Path.empty : List Pos := []

/-- `Path::step_count` — `-1` for the empty path, else `len - 1`. -/
def Path.step_count (p : List Pos) : Int :=
  if p.isEmpty then -1 else ((p.length - 1 : Nat) : Int)

/-- The mutable state of the BFS loop in `find_shortest_path`. -/
structure BfsState where
  queue : List Pos
  visited : Finset Pos
  parents : List (Pos × Pos)

/-- The inner `for next_move in self.valid_moves(...)` loop: enqueue, mark
visited and record the parent of every not-yet-visited move target. -/
def exploreMoves (current : Pos) : List Pos → BfsState → BfsState
  | [], s => s
  | w :: ws, s =>
    if w ∈ s.visited then exploreMoves current ws s
    else exploreMoves current ws ⟨s.queue ++ [w], insert w s.visited, (w, current) :: s.parents⟩

/-- The `while let Some(current_pos) = queue.pop_front()` loop of
`find_shortest_path`.  Fuel only bounds the iteration count; `find_shortest_path`
supplies enough for the loop to run to its natural end (proved below). -/
def bfsLoop (k : Ability) (start goal : Pos) : Nat → BfsState → Option (List Pos)
  | 0, _ => none
  | _ + 1, ⟨[], _, _⟩ => some Path.empty
  | fuel + 1, ⟨current :: rest, vis, par⟩ =>
    if current = goal then Path.new start goal par
    else bfsLoop k start goal fuel
      (exploreMoves current (k.valid_moves current goal) ⟨rest, vis, par⟩)

/-- Fuel that always outlasts the BFS loop: one iteration per possible
enqueue (each board cell at most once, plus the start), plus one final
empty-queue check. -/
def bfsFuel (goal : Pos) : Nat := goal.1.toNat * goal.2.toNat + 2

/-- `Ability::find_shortest_path` — BFS from `start`, with `goal` doubling as
the board boundary.  `none` models the (unreachable) panic in `Path::new`. -/
def Ability.find_shortest_path (k : Ability) (start goal : Pos) : Option (List Pos) :=
  bfsLoop k start goal (bfsFuel goal) ⟨[start], {start}, []⟩

/-- The inclusive integer range `lo..=hi` as a list (Rust `for r in lo..=hi`). -/
def rangeIncl (lo hi : Int) : List Int :=
  (List.range (hi + 1 - lo).toNat).map (fun (i : Nat) => lo + (i : Int))

/-- `struct Reports { data: VecDeque<Report>, n: i32 }`. -/
structure Reports where
  data : List Int
  n : Int

/-- `Reports::get_idx` — row-major slot of `(r, c)` in an `n × n` grid. -/
def Reports.get_idx (n r c : Int) : Nat := ((r - 1) * n + (c - 1)).toNat

/-- The nested `for r in 1..=n { for c in 1..=n { … } }` cell sequence of
`Reports::finalize`, row-major. -/
def cellList (n : Int) : List (Int × Int) :=
  (rangeIncl 1 n).flatMap (fun r => (rangeIncl 1 n).map (fun c => (r, c)))

/-- The body of `Reports::finalize`'s double loop: for an upper cell
(`r ≤ c`) pop the next report into slot `(r, c)`; for a lower cell copy the
mirror slot `(c, r)`.  `none` models `panic!("no item")`. -/
def fillCells (n : Int) : List (Int × Int) → List Int → List Int → Option (List Int)
  | [], _, arr => some arr
  | (r, c) :: cs, data, arr =>
    if r ≤ c then
      match data with
      | [] => none
      | item :: data' => fillCells n cs data' (arr.set (Reports.get_idx n r c) item)
    else
      fillCells n cs data (arr.set (Reports.get_idx n r c) (arr.getD (Reports.get_idx n c r) 0))

/-- `Reports::finalize` — fold the triangular report stream into the full
`n × n` symmetric matrix (row-major). -/
def Reports.finalize (reports : Reports) : Option Reports :=
  (fillCells reports.n (cellList reports.n) reports.data
      (List.replicate (reports.n * reports.n).toNat 0)).map
    (fun arr => ⟨arr, reports.n⟩)

/-- `fn report(knight, goal)` — the step count of the knight's shortest path
from `(1, 1)` to `goal`. -/
def report (knight : Ability) (goal : Pos) : Option Int :=
  (knight.find_shortest_path (1, 1) goal).map Path.step_count

/-- The knight list built by `run`'s nested loop
`for r in 1..n { for c in 1..n { if r <= c { push Ability(r, c) } } }`. -/
def knightList (n : Int) : List Ability :=
  (rangeIncl 1 (n - 1)).flatMap
    (fun r => ((rangeIncl 1 (n - 1)).filter (fun c => decide (r ≤ c))).map (fun c => Ability.mk r c))

/-- `pub fn run(n)` — `none` models `Err` (`InvalidInput` for `n` outside
`[5, 25]`; the inner `mapM` never fails, as proved below). -/
def run (n : Int) : Option Reports :=
  if 5 ≤ n ∧ n ≤ 25 then
    match (knightList n).mapM (fun knight => report knight (n, n)) with
    | some data => some ⟨data, n - 1⟩
    | none => none
  else none

/-!
## Specification-side notions

Reachability in the implicit graph whose nodes are positions and whose edges
are the leaper's valid moves (with `goal` as the board boundary, exactly as
in `find_shortest_path`).
-/

/-- `Reach k start goal n v`: `v` is reachable from `start` in exactly `n`
valid moves of `k` on the board bounded by `goal`. -/
inductive Reach (k : Ability) (start goal : Pos) : Nat → Pos → Prop
  | refl : Reach k start goal 0 start
  | step {n : Nat} {u v : Pos} :
      Reach k start goal n u → v ∈ k.valid_moves u goal → Reach k start goal (n + 1) v

/-- `v` is reachable from `start` in some number of valid moves. -/
def Reachable (k : Ability) (start goal : Pos) (v : Pos) : Prop :=
  ∃ n, Reach k start goal n v

/-- `d` is the exact shortest-path distance from `start` to `v`. -/
def IsDist (k : Ability) (start goal : Pos) (v : Pos) (d : Nat) : Prop :=
  Reach k start goal d v ∧ ∀ j, Reach k start goal j v → d ≤ j

/-- `p` is a concrete move path from `s` to `t`: nonempty, starts at `s`,
ends at `t`, and every consecutive pair is one of `k`'s valid moves (so in
particular every position after the first lies on the board bounded by
`goal`). -/
def IsMovePath (k : Ability) (goal : Pos) (p : List Pos) (s t : Pos) : Prop :=
  p.head? = some s ∧ p.getLast? = some t ∧
    List.Chain' (fun u v => v ∈ k.valid_moves u goal) p

/-- The board cells, as a finite set: the rectangle `[1, g.1] × [1, g.2]`. -/
def boardBox (g : Pos) : Finset Pos := Finset.Icc 1 g.1 ×ˢ Finset.Icc 1 g.2

/-- The chain that `Path::new`'s backtracking walk traverses: `p` lists the
positions from `start` to `v`, each linked to its predecessor in the parents
map. -/
inductive Builds (P : List (Pos × Pos)) (start : Pos) : Pos → List Pos → Prop
  | base : Builds P start start [start]
  | step {u v : Pos} {p : List Pos} :
      v ≠ start → lookupPos P v = some u → Builds P start u p → Builds P start v (p ++ [v])

/-- The invariant of the BFS `while` loop, at frontier level `d`: the queue is
`qa ++ qb` with `qa` exactly at distance `d` and `qb` at `d + 1`; every
position at distance `≤ d` has been visited, every visited position is at
distance `≤ d + 1`; dequeued (visited, no longer queued) positions have all
their neighbours visited; the goal, if visited, is still queued (the loop
returns upon dequeuing it); and every visited position carries a parent chain
of the exact shortest-path shape. -/
structure InvAt (k : Ability) (start goal : Pos) (d : Nat) (qa qb : List Pos)
    (s : BfsState) : Prop where
  queue_eq : s.queue = qa ++ qb
  start_vis : start ∈ s.visited
  qa_spec : ∀ x ∈ qa, x ∈ s.visited ∧ IsDist k start goal x d
  qb_spec : ∀ x ∈ qb, x ∈ s.visited ∧ IsDist k start goal x (d + 1)
  closed : ∀ v j, IsDist k start goal v j → j ≤ d → v ∈ s.visited
  vis_near : ∀ v ∈ s.visited, ∃ j, IsDist k start goal v j ∧ j ≤ d + 1
  expanded : ∀ v ∈ s.visited, v ∉ s.queue → ∀ w ∈ k.valid_moves v goal, w ∈ s.visited
  goal_q : goal ∈ s.visited → goal ∈ s.queue
  par : ∀ v ∈ s.visited, ∃ p, Builds s.parents start v p ∧
      List.Chain' (fun x y => y ∈ k.valid_moves x goal) p ∧
      (∀ x ∈ p, x ∈ s.visited) ∧
      (∀ (i : Nat) (h : i < p.length), IsDist k start goal p[i] i)

/-- The BFS loop invariant (at some frontier level). -/
def Inv (k : Ability) (start goal : Pos) (s : BfsState) : Prop :=
  ∃ d qa qb, InvAt k start goal d qa qb s

/-- The upper-triangle cells (`r ≤ c`) of the `finalize` traversal, in
traversal order: exactly the cells whose reports are popped from the queue. -/
def upperCells (m : Int) : List (Int × Int) :=
  (cellList m).filter (fun rc => decide (rc.1 ≤ rc.2))

/-- Order an index pair so that the row is at most the column. -/
def sortPair (rc : Int × Int) : Int × Int := if rc.1 ≤ rc.2 then rc else (rc.2, rc.1)

/-- Position of the first occurrence of `x` (length of the list when absent). -/
def idxOf (x : Int × Int) : List (Int × Int) → Nat
  | [] => 0
  | y :: l => if y = x then 0 else idxOf x l + 1

/-- The `k`-th triangular number. -/
def tri : Nat → Nat
  | 0 => 0
  | k + 1 => tri k + (k + 1)

/-!
## Basic lemmas: validity, move membership, the board box
-/

theorem is_valid_iff {p g : Pos} :
    Position.is_valid p g = true ↔ 1 ≤ p.1 ∧ p.1 ≤ g.1 ∧ 1 ≤ p.2 ∧ p.2 ≤ g.2 := by
  simp [Position.is_valid]; tauto

/-- Membership in `valid_moves`: some offset of the move set lands there, and
the result is on the board. -/
theorem mem_valid_moves {k : Ability} {u g w : Pos} :
    w ∈ k.valid_moves u g ↔
      (∃ mv ∈ k.moves, (u.1 + mv.1, u.2 + mv.2) = w) ∧ Position.is_valid w g = true := by
  simp only [Ability.valid_moves, List.mem_filterMap, Position.try_from]
  constructor
  · rintro ⟨mv, hmv, h⟩
    split at h
    · rename_i hv
      cases h
      exact ⟨⟨mv, hmv, rfl⟩, hv⟩
    · cases h
  · rintro ⟨⟨mv, hmv, hw⟩, hv⟩
    refine ⟨mv, hmv, ?_⟩
    rw [hw]
    simp [hv]

theorem valid_of_mem_valid_moves {k : Ability} {u g w : Pos} (h : w ∈ k.valid_moves u g) :
    Position.is_valid w g = true :=
  (mem_valid_moves.mp h).2


theorem mem_boardBox {p g : Pos} : p ∈ boardBox g ↔ Position.is_valid p g = true := by
  rw [is_valid_iff]
  simp [boardBox, Finset.mem_product]
  tauto

theorem boardBox_card (g : Pos) : (boardBox g).card = g.1.toNat * g.2.toNat := by
  simp only [boardBox, Finset.card_product, Int.card_Icc]
  congr 1 <;> omega

/-!
## Basic lemmas: inclusive ranges
-/

theorem mem_rangeIncl {lo hi x : Int} : x ∈ rangeIncl lo hi ↔ lo ≤ x ∧ x ≤ hi := by
  simp only [rangeIncl, List.mem_map, List.mem_range]
  constructor
  · rintro ⟨i, hlt, rfl⟩
    omega
  · rintro ⟨h1, h2⟩
    exact ⟨(x - lo).toNat, by omega, by omega⟩

theorem rangeIncl_pairwise (lo hi : Int) : (rangeIncl lo hi).Pairwise (· < ·) :=
  List.Pairwise.map _ (fun a b hab => by omega) (List.pairwise_lt_range _)

theorem rangeIncl_nodup (lo hi : Int) : (rangeIncl lo hi).Nodup :=
  (rangeIncl_pairwise lo hi).imp (fun h => by omega)

theorem rangeIncl_getElem? {lo hi : Int} {i : Nat} (h : i < (hi + 1 - lo).toNat) :
    (rangeIncl lo hi)[i]? = some (lo + (i : Int)) := by
  rw [rangeIncl, List.getElem?_map, List.getElem?_range h, Option.map_some']

theorem rangeIncl_length (lo hi : Int) : (rangeIncl lo hi).length = (hi + 1 - lo).toNat := by
  rw [rangeIncl, List.length_map, List.length_range]

theorem rangeIncl_cons {lo hi : Int} (h : lo ≤ hi) :
    rangeIncl lo hi = lo :: rangeIncl (lo + 1) hi := by
  have hn : (hi + 1 - lo).toNat = (hi + 1 - (lo + 1)).toNat + 1 := by omega
  simp only [rangeIncl, hn, List.range_succ_eq_map, List.map_cons, List.map_map]
  refine congrArg₂ _ (by omega) ?_
  apply List.map_congr_left
  intro i _
  simp only [Function.comp_apply, Nat.succ_eq_add_one]
  omega

theorem rangeIncl_eq_nil {lo hi : Int} (h : hi < lo) : rangeIncl lo hi = [] := by
  have : (hi + 1 - lo).toNat = 0 := by omega
  simp [rangeIncl, this]

/-!
## Distance basics
-/

theorem isDist_unique {k : Ability} {s g v : Pos} {d d' : Nat}
    (h : IsDist k s g v d) (h' : IsDist k s g v d') : d = d' :=
  le_antisymm (h.2 _ h'.1) (h'.2 _ h.1)

theorem exists_isDist {k : Ability} {s g v : Pos} {n : Nat} (h : Reach k s g n v) :
    ∃ d, IsDist k s g v d ∧ d ≤ n := by
  have hne : {j | Reach k s g j v}.Nonempty := ⟨n, h⟩
  exact ⟨sInf {j | Reach k s g j v}, ⟨Nat.sInf_mem hne, fun j hj => Nat.sInf_le hj⟩,
    Nat.sInf_le h⟩

theorem reach_zero {k : Ability} {s g v : Pos} (h : Reach k s g 0 v) : v = s := by
  cases h; rfl

theorem isDist_start (k : Ability) (s g : Pos) : IsDist k s g s 0 :=
  ⟨Reach.refl, fun j _ => Nat.zero_le j⟩

theorem reach_succ_inv {k : Ability} {s g : Pos} {n : Nat} {v : Pos}
    (h : Reach k s g (n + 1) v) : ∃ u, Reach k s g n u ∧ v ∈ k.valid_moves u g := by
  cases h with
  | step hu hv => exact ⟨_, hu, hv⟩

/-!
## Move paths vs `Reach`
-/

theorem reach_of_movePath {k : Ability} {g s : Pos} {p : List Pos} :
    ∀ {t : Pos}, IsMovePath k g p s t → Reach k s g (p.length - 1) t := by
  induction p using List.reverseRecOn with
  | nil => intro t h; simp [IsMovePath] at h
  | append_singleton xs x ih =>
    intro t h
    obtain ⟨hhead, hlast, hchain⟩ := h
    rw [List.getLast?_append, List.getLast?_singleton] at hlast
    simp only [Option.or_some] at hlast
    cases hlast
    cases hxs : xs with
    | nil =>
      subst hxs
      simp only [List.nil_append, List.head?_cons] at hhead
      cases hhead
      exact Reach.refl
    | cons y ys =>
      subst hxs
      rw [List.chain'_append] at hchain
      obtain ⟨hc1, _, hc3⟩ := hchain
      have hlast' : (y :: ys).getLast? = some ((y :: ys).getLast (by simp)) :=
        List.getLast?_eq_getLast _ _
      have hedge : x ∈ k.valid_moves ((y :: ys).getLast (by simp)) g :=
        hc3 _ hlast' _ rfl
      have hpath : IsMovePath k g (y :: ys) s ((y :: ys).getLast (by simp)) := by
        refine ⟨?_, hlast', hc1⟩
        simpa using hhead
      have := (ih hpath).step hedge
      simpa using this

theorem movePath_of_reach {k : Ability} {s g : Pos} {n : Nat} {t : Pos}
    (h : Reach k s g n t) : ∃ p, IsMovePath k g p s t ∧ p.length = n + 1 := by
  induction h with
  | refl => exact ⟨[s], ⟨rfl, rfl, List.chain'_singleton s⟩, rfl⟩
  | step hu hv ih =>
    rename_i m u v
    obtain ⟨p, ⟨hh, hl, hc⟩, hlen⟩ := ih
    refine ⟨p ++ [v], ⟨?_, ?_, ?_⟩, by simp [hlen]⟩
    · cases p with
      | nil => cases hh
      | cons a as => simpa using hh
    · simp [List.getLast?_append]
    · rw [List.chain'_append]
      exact ⟨hc, List.chain'_singleton v, fun x hx y hy => by
        rw [hl] at hx
        cases hx
        cases hy
        exact hv⟩

theorem movePath_ne_nil {k : Ability} {g : Pos} {p : List Pos} {s t : Pos}
    (h : IsMovePath k g p s t) : p ≠ [] := by
  intro hnil
  subst hnil
  cases h.1

/-!
## The parents map: `lookupPos`, `Builds`, `backtrack`
-/

theorem lookupPos_isSome_mem {P : List (Pos × Pos)} {x : Pos}
    (h : (lookupPos P x).isSome = true) : x ∈ P.map Prod.fst := by
  induction P with
  | nil => simp [lookupPos] at h
  | cons kv rest ih =>
    obtain ⟨key, val⟩ := kv
    by_cases hk : key = x
    · simp [hk]
    · rw [lookupPos, if_neg hk] at h
      exact List.mem_cons_of_mem _ (ih h)


theorem Builds.getLast_eq {P : List (Pos × Pos)} {s v : Pos} {p : List Pos}
    (h : Builds P s v p) : p.getLast? = some v := by
  induction h with
  | base => rfl
  | step _ _ _ _ => simp [List.getLast?_append]

theorem Builds.head_eq {P : List (Pos × Pos)} {s v : Pos} {p : List Pos}
    (h : Builds P s v p) : p.head? = some s := by
  induction h with
  | base => rfl
  | @step u v p hne hlk hb ih =>
    cases p with
    | nil => cases ih
    | cons a as => simpa using ih

theorem Builds.keys {P : List (Pos × Pos)} {s v : Pos} {p : List Pos}
    (h : Builds P s v p) : ∀ x ∈ p, x = s ∨ (lookupPos P x).isSome = true := by
  induction h with
  | base => intro x hx; rw [List.mem_singleton] at hx; exact Or.inl hx
  | step hne hlk _ ih =>
    intro x hx
    rw [List.mem_append, List.mem_singleton] at hx
    rcases hx with hx | hx
    · exact ih x hx
    · subst hx
      exact Or.inr (by rw [hlk]; rfl)

theorem backtrack_of_builds {P : List (Pos × Pos)} {s : Pos} {v : Pos} {p : List Pos}
    (h : Builds P s v p) : ∀ (fuel : Nat), p.length ≤ fuel → ∀ acc,
      backtrack P s fuel v acc = some (acc ++ p.reverse.tail) := by
  induction h with
  | base =>
    intro fuel hf acc
    match fuel, hf with
    | fuel + 1, _ => simp [backtrack]
  | step hne hlk hb ih =>
    rename_i u v p
    intro fuel hf acc
    rw [List.length_append, List.length_singleton] at hf
    match fuel, hf with
    | fuel + 1, hf =>
      have hrev : p.reverse = u :: p.reverse.tail := by
        have h1 : p.reverse.head? = some u := by rw [List.head?_reverse]; exact hb.getLast_eq
        exact (List.cons_head?_tail h1).symm
      have hred : backtrack P s (fuel + 1) v acc = backtrack P s fuel u (acc ++ [u]) := by
        simp [backtrack, if_neg hne, hlk]
      rw [hred, ih fuel (by omega) (acc ++ [u])]
      have hail : (p ++ [v]).reverse.tail = p.reverse := by simp
      rw [hail, hrev]
      simp

theorem pathNew_of_builds {P : List (Pos × Pos)} {s v : Pos} {p : List Pos}
    (h : Builds P s v p) (hlen : p.length ≤ P.length + 1) : Path.new s v P = some p := by
  have hrev : p.reverse = v :: p.reverse.tail := by
    have h1 : p.reverse.head? = some v := by rw [List.head?_reverse]; exact h.getLast_eq
    exact (List.cons_head?_tail h1).symm
  rw [Path.new, backtrack_of_builds h (P.length + 1) hlen [v]]
  simp only [Option.map_some', List.singleton_append]
  rw [← hrev, List.reverse_reverse]

theorem length_le_of_nodup_keys {p : List Pos} {P : List (Pos × Pos)} {s : Pos}
    (hnd : p.Nodup) (hk : ∀ x ∈ p, x = s ∨ (lookupPos P x).isSome = true) :
    p.length ≤ P.length + 1 := by
  have hsub : p.toFinset ⊆ insert s (P.map Prod.fst).toFinset := by
    intro x hx
    rcases hk x (List.mem_toFinset.mp hx) with h | h
    · subst h; exact Finset.mem_insert_self _ _
    · exact Finset.mem_insert_of_mem (List.mem_toFinset.mpr (lookupPos_isSome_mem h))
  have h1 : p.toFinset.card = p.length := List.toFinset_card_of_nodup hnd
  have h2 : p.toFinset.card ≤ (insert s (P.map Prod.fst).toFinset).card :=
    Finset.card_le_card hsub
  have h3 : (insert s (P.map Prod.fst).toFinset).card ≤ (P.map Prod.fst).toFinset.card + 1 :=
    Finset.card_insert_le _ _
  have h4 : (P.map Prod.fst).toFinset.card ≤ (P.map Prod.fst).length := (P.map Prod.fst).toFinset_card_le
  have h5 : (P.map Prod.fst).length = P.length := List.length_map _ _
  omega

/-!
## The inner exploration loop
-/

/-- Complete description of one run of the inner `for next_move in valid_moves`
loop: some sublist `news` of fresh (unvisited, deduplicated) positions is
appended to the queue, added to the visited set, and given parent `u`; old
parent entries are untouched, and afterwards every offered move target is
visited. -/
theorem exploreMoves_spec (u : Pos) :
    ∀ (ws : List Pos) (s : BfsState),
      ∃ news : List Pos,
        (exploreMoves u ws s).queue = s.queue ++ news ∧
        (exploreMoves u ws s).visited = s.visited ∪ news.toFinset ∧
        news.Nodup ∧
        (∀ x ∈ news, x ∈ ws ∧ x ∉ s.visited) ∧
        (∀ w ∈ ws, w ∈ (exploreMoves u ws s).visited) ∧
        (∀ x ∈ s.visited, lookupPos (exploreMoves u ws s).parents x = lookupPos s.parents x) ∧
        (∀ x ∈ news, lookupPos (exploreMoves u ws s).parents x = some u) := by
  intro ws
  induction ws with
  | nil =>
    intro s
    exact ⟨[], by simp [exploreMoves], by simp [exploreMoves], List.nodup_nil, by simp,
      by simp, by simp [exploreMoves], by simp⟩
  | cons w ws ih =>
    intro s
    by_cases hw : w ∈ s.visited
    · have hstep : exploreMoves u (w :: ws) s = exploreMoves u ws s := by
        simp [exploreMoves, hw]
      obtain ⟨news, h1, h2, h3, h4, h5, h6, h7⟩ := ih s
      rw [hstep]
      refine ⟨news, h1, h2, h3, ?_, ?_, h6, h7⟩
      · exact fun x hx => ⟨List.mem_cons_of_mem _ (h4 x hx).1, (h4 x hx).2⟩
      · intro w' hw'
        rcases List.mem_cons.mp hw' with rfl | hw'
        · rw [h2]; exact Finset.mem_union_left _ hw
        · exact h5 w' hw'
    · have hstep : exploreMoves u (w :: ws) s =
          exploreMoves u ws ⟨s.queue ++ [w], insert w s.visited, (w, u) :: s.parents⟩ := by
        simp [exploreMoves, hw]
      obtain ⟨news, h1, h2, h3, h4, h5, h6, h7⟩ :=
        ih ⟨s.queue ++ [w], insert w s.visited, (w, u) :: s.parents⟩
      rw [hstep]
      have hwn : w ∉ news := fun hmem => (h4 w hmem).2 (Finset.mem_insert_self _ _)
      refine ⟨w :: news, ?_, ?_, List.nodup_cons.mpr ⟨hwn, h3⟩, ?_, ?_, ?_, ?_⟩
      · rw [h1]; simp
      · rw [h2]
        ext x
        simp only [Finset.mem_union, Finset.mem_insert, List.mem_toFinset, List.mem_cons]
        tauto
      · intro x hx
        rcases List.mem_cons.mp hx with rfl | hx
        · exact ⟨List.mem_cons_self _ _, hw⟩
        · refine ⟨List.mem_cons_of_mem _ (h4 x hx).1, fun hv => (h4 x hx).2 ?_⟩
          exact Finset.mem_insert_of_mem hv
      · intro w' hw'
        rcases List.mem_cons.mp hw' with rfl | hw'
        · rw [h2]; exact Finset.mem_union_left _ (Finset.mem_insert_self _ _)
        · exact h5 w' hw'
      · intro x hx
        have hx' : x ∈ (insert w s.visited : Finset Pos) := Finset.mem_insert_of_mem hx
        rw [h6 x hx', lookupPos, if_neg (fun h => hw (by rw [h]; exact hx))]
      · intro x hx
        rcases List.mem_cons.mp hx with rfl | hx
        · rw [h6 x (Finset.mem_insert_self _ _), lookupPos, if_pos rfl]
        · exact h7 x hx

/-!
## The BFS loop invariant
-/

/-- `Builds` only inspects the parent entries of the chain's own elements, so
it transfers to any parents map that agrees on them. -/
theorem Builds.congr {P P' : List (Pos × Pos)} {s v : Pos} {p : List Pos}
    (h : Builds P s v p) (hagree : ∀ x ∈ p, lookupPos P' x = lookupPos P x) :
    Builds P' s v p := by
  induction h with
  | base => exact Builds.base
  | @step u v p hne hlk hb ih =>
    refine Builds.step hne ?_ (ih fun x hx => hagree x (by simp [hx]))
    rw [hagree v (by simp), hlk]

/-- A chain whose `i`-th element is at distance exactly `i` has no duplicates. -/
theorem nodup_of_indexed_dist {k : Ability} {s g : Pos} {p : List Pos}
    (hidx : ∀ (i : Nat) (h : i < p.length), IsDist k s g p[i] i) : p.Nodup := by
  rw [List.nodup_iff_injective_get]
  intro ⟨i, hi⟩ ⟨j, hj⟩ hij
  have h1 := hidx i hi
  have h2 := hidx j hj
  simp only [List.get_eq_getElem] at hij
  rw [hij] at h1
  exact Fin.ext (isDist_unique h1 h2)



/-- When the level-`d` part of the queue is exhausted, the whole level `d + 1`
has been discovered and the invariant realigns one level deeper. -/
theorem InvAt.relevel {k : Ability} {start goal : Pos} {d : Nat} {qb : List Pos}
    {s : BfsState} (h : InvAt k start goal d [] qb s) :
    InvAt k start goal (d + 1) qb [] s := by
  refine ⟨by simpa using h.queue_eq, h.start_vis, h.qb_spec, by simp, ?_, ?_,
    h.expanded, h.goal_q, h.par⟩
  · intro v j hdist hj
    rcases Nat.lt_or_ge j (d + 1) with hlt | hge
    · exact h.closed v j hdist (by omega)
    · have hj' : j = d + 1 := by omega
      subst hj'
      obtain ⟨u, hu, hedge⟩ := reach_succ_inv hdist.1
      obtain ⟨j', hj'dist, hj'le⟩ := exists_isDist hu
      have huvis : u ∈ s.visited := h.closed u j' hj'dist hj'le
      have hunq : u ∉ s.queue := by
        rw [h.queue_eq]
        simp only [List.nil_append]
        intro hmem
        have := (h.qb_spec u hmem).2
        have := isDist_unique hj'dist this
        omega
      exact h.expanded u huvis hunq v hedge
  · intro v hv
    obtain ⟨j, hj, hle⟩ := h.vis_near v hv
    exact ⟨j, hj, by omega⟩

/-- The invariant holds at the initial BFS state. -/
theorem inv_init (k : Ability) (start goal : Pos) :
    InvAt k start goal 0 [start] [] ⟨[start], {start}, []⟩ := by
  refine ⟨by simp, Finset.mem_singleton_self _, ?_, by simp, ?_, ?_, ?_, ?_, ?_⟩
  · intro x hx
    rw [List.mem_singleton] at hx
    exact ⟨by simp [hx], hx ▸ isDist_start k start goal⟩
  · intro v j hdist hj
    have hj0 : j = 0 := by omega
    subst hj0
    have := reach_zero hdist.1
    simp [this]
  · intro v hv
    rw [Finset.mem_singleton] at hv
    exact ⟨0, hv ▸ isDist_start k start goal, by omega⟩
  · intro v hv hq
    rw [Finset.mem_singleton] at hv
    simp [hv] at hq
  · intro hg
    rw [Finset.mem_singleton] at hg
    simp [hg]
  · intro v hv
    rw [Finset.mem_singleton] at hv
    refine ⟨[v], hv ▸ Builds.base, List.chain'_singleton v, by simp [hv], ?_⟩
    intro i h
    have hi0 : i = 0 := by simpa using h
    subst hi0
    simpa using hv ▸ isDist_start k start goal

/-- Any invariant state with a nonempty queue can be realigned so that the
dequeued head sits in the level-exact part of the queue. -/
theorem inv_head_form {k : Ability} {start goal : Pos} {u : Pos} {rest : List Pos}
    {V : Finset Pos} {P : List (Pos × Pos)}
    (h : Inv k start goal ⟨u :: rest, V, P⟩) :
    ∃ d qa qb, InvAt k start goal d (u :: qa) qb ⟨u :: rest, V, P⟩ ∧ rest = qa ++ qb := by
  obtain ⟨d, qa, qb, hat⟩ := h
  cases qa with
  | nil =>
    have hq : u :: rest = qb := by simpa using hat.queue_eq
    have hat' := hat.relevel
    rw [← hq] at hat'
    exact ⟨d + 1, rest, [], by simpa using hat', by simp⟩
  | cons u' qa =>
    have hq : u :: rest = u' :: (qa ++ qb) := by simpa using hat.queue_eq
    have hu : u' = u := by injection hq with h1 _; exact h1.symm
    have hrest : rest = qa ++ qb := by injection hq
    subst hu
    exact ⟨d, qa, qb, hat, hrest⟩

/-- One iteration of the BFS loop on a non-goal head `u` (at exact level `d`)
preserves the invariant: the freshly discovered neighbours `news` enter the
queue at level `d + 1`. -/
theorem inv_step {k : Ability} {start goal u : Pos} {d : Nat} {qa qb rest : List Pos}
    {V : Finset Pos} {P : List (Pos × Pos)}
    (hat : InvAt k start goal d (u :: qa) qb ⟨u :: rest, V, P⟩)
    (hrest : rest = qa ++ qb) (hne : u ≠ goal) :
    ∃ news : List Pos,
      InvAt k start goal d qa (qb ++ news)
        (exploreMoves u (k.valid_moves u goal) ⟨rest, V, P⟩) ∧
      news.Nodup ∧
      (∀ x ∈ news, x ∉ V ∧ x ∈ k.valid_moves u goal) ∧
      (exploreMoves u (k.valid_moves u goal) ⟨rest, V, P⟩).queue = rest ++ news ∧
      (exploreMoves u (k.valid_moves u goal) ⟨rest, V, P⟩).visited = V ∪ news.toFinset := by
  obtain ⟨news, e1, e2, e3, e4, e5, e6, e7⟩ :=
    exploreMoves_spec u (k.valid_moves u goal) ⟨rest, V, P⟩
  dsimp only at e1 e2 e4 e6
  obtain ⟨huV, hud⟩ := hat.qa_spec u (List.mem_cons_self u qa)
  have hvis_mono : ∀ x ∈ V, x ∈ (exploreMoves u (k.valid_moves u goal) ⟨rest, V, P⟩).visited :=
    fun x hx => by rw [e2]; exact Finset.mem_union_left _ hx
  have hnews_vis :
      ∀ x ∈ news, x ∈ (exploreMoves u (k.valid_moves u goal) ⟨rest, V, P⟩).visited :=
    fun x hx => by rw [e2]; exact Finset.mem_union_right _ (List.mem_toFinset.mpr hx)
  have hnews_dist : ∀ x ∈ news, IsDist k start goal x (d + 1) := by
    intro x hx
    obtain ⟨hxw, hxV⟩ := e4 x hx
    have hreach : Reach k start goal (d + 1) x := hud.1.step hxw
    obtain ⟨j, hj, hjle⟩ := exists_isDist hreach
    rcases Nat.lt_or_ge j (d + 1) with hlt | hge
    · exact absurd (hat.closed x j hj (by omega)) hxV
    · have hjeq : j = d + 1 := by omega
      exact hjeq ▸ hj
  refine ⟨news, ⟨?_, hvis_mono start hat.start_vis, ?_, ?_, ?_, ?_, ?_, ?_, ?_⟩,
    e3, fun x hx => ⟨(e4 x hx).2, (e4 x hx).1⟩, e1, e2⟩
  · rw [e1, hrest, List.append_assoc]
  · intro x hx
    obtain ⟨hxV, hxd⟩ := hat.qa_spec x (List.mem_cons_of_mem _ hx)
    exact ⟨hvis_mono x hxV, hxd⟩
  · intro x hx
    rcases List.mem_append.mp hx with hx | hx
    · obtain ⟨hxV, hxd⟩ := hat.qb_spec x hx
      exact ⟨hvis_mono x hxV, hxd⟩
    · exact ⟨hnews_vis x hx, hnews_dist x hx⟩
  · intro v j hd hj
    exact hvis_mono v (hat.closed v j hd hj)
  · intro v hv
    rw [e2] at hv
    rcases Finset.mem_union.mp hv with hv | hv
    · exact hat.vis_near v hv
    · exact ⟨d + 1, hnews_dist v (List.mem_toFinset.mp hv), le_refl _⟩
  · intro v hv hq w hw
    rw [e2] at hv
    rw [e1] at hq
    rcases Finset.mem_union.mp hv with hv | hv
    · by_cases hvu : v = u
      · subst hvu
        exact e5 w hw
      · have hnq : v ∉ u :: rest := by
          intro hmem
          rcases List.mem_cons.mp hmem with h | h
          · exact hvu h
          · exact hq (List.mem_append_left _ h)
        exact hvis_mono w (hat.expanded v hv hnq w hw)
    · exact absurd (List.mem_append_right _ (List.mem_toFinset.mp hv)) hq
  · intro hg
    rw [e2] at hg
    rw [e1]
    rcases Finset.mem_union.mp hg with hg | hg
    · have := hat.goal_q hg
      rcases List.mem_cons.mp this with h | h
      · exact absurd h.symm hne
      · exact List.mem_append_left _ h
    · exact List.mem_append_right _ (List.mem_toFinset.mp hg)
  · intro v hv
    rw [e2] at hv
    rcases Finset.mem_union.mp hv with hvV | hvN
    · obtain ⟨p, hb, hc, hsub, hidx⟩ := hat.par v hvV
      exact ⟨p, hb.congr (fun x hx => e6 x (hsub x hx)), hc,
        fun x hx => hvis_mono x (hsub x hx), hidx⟩
    · have hvnews := List.mem_toFinset.mp hvN
      obtain ⟨p, hb, hc, hsub, hidx⟩ := hat.par u huV
      have hpne : p ≠ [] := by
        intro h
        rw [h] at hb
        cases hb.getLast_eq
      have hppos : 0 < p.length := List.length_pos.mpr hpne
      have hplen : p.length = d + 1 := by
        have hlt : p.length - 1 < p.length := by omega
        have h1 : p.getLast? = p[p.length - 1]? := List.getLast?_eq_getElem? p
        rw [hb.getLast_eq, List.getElem?_eq_getElem hlt] at h1
        have hgetlast : p[p.length - 1] = u := (Option.some.inj h1).symm
        have h2 := hidx (p.length - 1) hlt
        rw [hgetlast] at h2
        have := isDist_unique h2 hud
        omega
      refine ⟨p ++ [v], ?_, ?_, ?_, ?_⟩
      · refine Builds.step ?_ (e7 v hvnews) (hb.congr fun x hx => e6 x (hsub x hx))
        intro hvs
        exact (e4 v hvnews).2 (hvs ▸ hat.start_vis)
      · rw [List.chain'_append]
        refine ⟨hc, List.chain'_singleton v, ?_⟩
        intro x hx y hy
        rw [Option.mem_def, hb.getLast_eq] at hx
        rw [Option.mem_def] at hy
        have hxu : x = u := (Option.some.inj hx).symm
        have hyv : y = v := (Option.some.inj hy).symm
        rw [hxu, hyv]
        exact (e4 v hvnews).1
      · intro x hx
        rcases List.mem_append.mp hx with hx | hx
        · exact hvis_mono x (hsub x hx)
        · rw [List.mem_singleton] at hx
          exact hx ▸ hnews_vis v hvnews
      · intro i h
        rw [List.length_append, List.length_singleton] at h
        rcases Nat.lt_or_ge i p.length with hlt | hge
        · rw [List.getElem_append_left hlt]
          exact hidx i hlt
        · have hi : i = p.length := by omega
          subst hi
          have hgv : (p ++ [v])[p.length] = v := by
            rw [List.getElem_append_right (le_refl _)]
            simp
          rw [hgv, hplen]
          exact hnews_dist v hvnews

/-- When the queue is empty, every position at a well-defined distance has
been visited (iterate `relevel` past any level). -/
theorem inv_empty_closed {k : Ability} {start goal : Pos} {d : Nat} {qa qb : List Pos}
    {V : Finset Pos} {P : List (Pos × Pos)}
    (hat : InvAt k start goal d qa qb ⟨[], V, P⟩) :
    ∀ v j, IsDist k start goal v j → v ∈ V := by
  have hq : qa = [] ∧ qb = [] := by
    have h := hat.queue_eq
    simp only [List.nil_eq, List.append_eq_nil] at h
    exact ⟨h.1, h.2⟩
  obtain ⟨hqa, hqb⟩ := hq
  subst hqa
  subst hqb
  have hall : ∀ (i : Nat), InvAt k start goal (d + i) [] [] ⟨[], V, P⟩ := by
    intro i
    induction i with
    | zero => simpa using hat
    | succ i ihi =>
      have := ihi.relevel
      have heq : d + i + 1 = d + (i + 1) := by omega
      exact heq ▸ this
  intro v j hj
  exact (hall j).closed v j hj (by omega)

/-- Core correctness of the BFS loop, by induction on the fuel, which the
stated bound keeps ahead of the remaining work: the loop returns `some` path;
the empty path exactly when the goal is unreachable; otherwise a move path
from `start` to `goal` of exact shortest length. -/
theorem bfsLoop_spec (k : Ability) (start goal : Pos) :
    ∀ (fuel : Nat) (S : BfsState), Inv k start goal S →
      (boardBox goal).card - (S.visited ∩ boardBox goal).card + S.queue.length + 1 ≤ fuel →
      ∃ p, bfsLoop k start goal fuel S = some p ∧
        (¬Reachable k start goal goal → p = []) ∧
        (Reachable k start goal goal →
          IsMovePath k goal p start goal ∧
          ∀ j, IsDist k start goal goal j → p.length = j + 1) := by
  intro fuel
  induction fuel with
  | zero => intro S _ hb; omega
  | succ fuel ih =>
    intro S hinv hbound
    obtain ⟨queue, V, P⟩ := S
    cases queue with
    | nil =>
      refine ⟨[], rfl, fun _ => rfl, ?_⟩
      intro hreach
      exfalso
      obtain ⟨d, qa, qb, hat⟩ := hinv
      obtain ⟨n, hn⟩ := hreach
      obtain ⟨j, hj, _⟩ := exists_isDist hn
      have hgV : goal ∈ V := inv_empty_closed hat goal j hj
      have := hat.goal_q hgV
      simp only at this
      cases this
    | cons u rest =>
      obtain ⟨d, qa, qb, hat, hrest⟩ := inv_head_form hinv
      by_cases hu : u = goal
      · subst hu
        obtain ⟨hgV, hgd⟩ := hat.qa_spec u (List.mem_cons_self _ _)
        obtain ⟨p, hb, hc, hsub, hidx⟩ := hat.par u hgV
        have hnd : p.Nodup := nodup_of_indexed_dist hidx
        have hlen := length_le_of_nodup_keys hnd hb.keys
        have hres : bfsLoop k start u (fuel + 1) ⟨u :: rest, V, P⟩ = Path.new start u P := by
          rw [bfsLoop, if_pos rfl]
        have hpn := pathNew_of_builds hb hlen
        have hpne : p ≠ [] := by
          intro h
          rw [h] at hb
          cases hb.getLast_eq
        have hppos : 0 < p.length := List.length_pos.mpr hpne
        have hlt : p.length - 1 < p.length := by omega
        have h1 : p.getLast? = p[p.length - 1]? := List.getLast?_eq_getElem? p
        rw [hb.getLast_eq, List.getElem?_eq_getElem hlt] at h1
        have hgl : p[p.length - 1] = u := (Option.some.inj h1).symm
        have h2 := hidx (p.length - 1) hlt
        rw [hgl] at h2
        refine ⟨p, by rw [hres, hpn], ?_, ?_⟩
        · intro hnr
          exfalso
          have hpath : IsMovePath k u p start u := ⟨hb.head_eq, hb.getLast_eq, hc⟩
          exact hnr ⟨p.length - 1, reach_of_movePath hpath⟩
        · intro _
          refine ⟨⟨hb.head_eq, hb.getLast_eq, hc⟩, ?_⟩
          intro j hj
          have := isDist_unique h2 hj
          omega
      · obtain ⟨news, hat', hnd, hprops, hq', hv'⟩ := inv_step hat hrest hu
        have hnews_box : ∀ x ∈ news, x ∈ boardBox goal := fun x hx =>
          mem_boardBox.mpr (valid_of_mem_valid_moves (hprops x hx).2)
        have hcard : ((exploreMoves u (k.valid_moves u goal) ⟨rest, V, P⟩).visited
            ∩ boardBox goal).card = (V ∩ boardBox goal).card + news.length := by
          rw [hv']
          have hsplit : (V ∪ news.toFinset) ∩ boardBox goal
              = (V ∩ boardBox goal) ∪ news.toFinset := by
            ext x
            simp only [Finset.mem_inter, Finset.mem_union, List.mem_toFinset]
            constructor
            · rintro ⟨hx | hx, hbx⟩
              · exact Or.inl ⟨hx, hbx⟩
              · exact Or.inr hx
            · rintro (⟨hx, hbx⟩ | hx)
              · exact ⟨Or.inl hx, hbx⟩
              · exact ⟨Or.inr hx, hnews_box x hx⟩
          have hdisj : Disjoint (V ∩ boardBox goal) news.toFinset := by
            rw [Finset.disjoint_left]
            intro x hx hxn
            exact (hprops x (List.mem_toFinset.mp hxn)).1 (Finset.mem_inter.mp hx).1
          rw [hsplit, Finset.card_union_of_disjoint hdisj, List.toFinset_card_of_nodup hnd]
        have hsub : ((exploreMoves u (k.valid_moves u goal) ⟨rest, V, P⟩).visited
            ∩ boardBox goal).card ≤ (boardBox goal).card :=
          Finset.card_le_card Finset.inter_subset_right
        have hq'len : (exploreMoves u (k.valid_moves u goal) ⟨rest, V, P⟩).queue.length
            = rest.length + news.length := by rw [hq']; simp
        have hbound' : (boardBox goal).card
            - ((exploreMoves u (k.valid_moves u goal) ⟨rest, V, P⟩).visited ∩ boardBox goal).card
            + (exploreMoves u (k.valid_moves u goal) ⟨rest, V, P⟩).queue.length + 1 ≤ fuel := by
          simp only [List.length_cons] at hbound
          omega
        obtain ⟨p, hres, hc1, hc2⟩ :=
          ih (exploreMoves u (k.valid_moves u goal) ⟨rest, V, P⟩) ⟨d, qa, qb ++ news, hat'⟩ hbound'
        have hstep : bfsLoop k start goal (fuel + 1) ⟨u :: rest, V, P⟩
            = bfsLoop k start goal fuel (exploreMoves u (k.valid_moves u goal) ⟨rest, V, P⟩) := by
          rw [bfsLoop, if_neg hu]
        exact ⟨p, by rw [hstep]; exact hres, hc1, hc2⟩

/-- Full behaviour of `find_shortest_path`: it always returns (`some`), the
result is empty exactly when the goal is unreachable, and otherwise it is a
valid move path from `start` to `goal` whose length is the exact shortest
distance plus one — in particular minimal among all move paths. -/
theorem find_shortest_path_spec (k : Ability) (start goal : Pos) :
    ∃ p, k.find_shortest_path start goal = some p ∧
      (¬Reachable k start goal goal → p = []) ∧
      (Reachable k start goal goal →
        IsMovePath k goal p start goal ∧
        (∀ j, IsDist k start goal goal j → p.length = j + 1) ∧
        (∀ q, IsMovePath k goal q start goal → p.length ≤ q.length)) := by
  have hinit : Inv k start goal ⟨[start], {start}, []⟩ := ⟨0, [start], [], inv_init k start goal⟩
  have hbound : (boardBox goal).card
      - (({start} : Finset Pos) ∩ boardBox goal).card + 1 + 1 ≤ bfsFuel goal := by
    have hbc := boardBox_card goal
    rw [bfsFuel]
    omega
  obtain ⟨p, hres, h1, h2⟩ :=
    bfsLoop_spec k start goal (bfsFuel goal) ⟨[start], {start}, []⟩ hinit (by
      simpa using hbound)
  refine ⟨p, hres, h1, ?_⟩
  intro hreach
  obtain ⟨hpath, hlen⟩ := h2 hreach
  refine ⟨hpath, hlen, ?_⟩
  intro q hq
  obtain ⟨n, hn⟩ := hreach
  obtain ⟨j, hj, _⟩ := exists_isDist hn
  have hplen := hlen j hj
  have hreachq := reach_of_movePath hq
  have hqpos : 0 < q.length := List.length_pos.mpr (movePath_ne_nil hq)
  have hjle := hj.2 _ hreachq
  omega

/-!
## Derived facts about the search and the move set
-/

theorem step_count_of_ne_nil {p : List Pos} (h : p ≠ []) :
    Path.step_count p = ((p.length - 1 : Nat) : Int) := by
  rw [Path.step_count, if_neg]
  simpa [List.isEmpty_iff] using h

theorem moves_eq_of_ne {a b : Int} (hab : a ≠ b) :
    (Ability.mk a b).moves
      = [(a, b), (a, -b), (-a, b), (-a, -b), (b, a), (b, -a), (-b, a), (-b, -a)] := by
  simp [Ability.moves, DIRECTIONS, Move.new, Ability.reverse, hab]

theorem moves_eq_of_eq (a : Int) :
    (Ability.mk a a).moves = [(a, a), (a, -a), (-a, a), (-a, -a)] := by
  simp [Ability.moves, DIRECTIONS, Move.new]

theorem moves_swap_mem {a b : Int} {mv : Move} :
    mv ∈ (Ability.mk a b).moves ↔ mv ∈ (Ability.mk b a).moves := by
  by_cases hab : a = b
  · subst hab
    exact Iff.rfl
  · rw [moves_eq_of_ne hab, moves_eq_of_ne (Ne.symm hab)]
    simp only [List.mem_cons, List.not_mem_nil, or_false]
    tauto

theorem valid_moves_swap {a b : Int} {u g w : Pos} :
    w ∈ (Ability.mk a b).valid_moves u g ↔ w ∈ (Ability.mk b a).valid_moves u g := by
  rw [mem_valid_moves, mem_valid_moves]
  constructor
  · rintro ⟨⟨mv, hmv, hw⟩, hv⟩
    exact ⟨⟨mv, moves_swap_mem.mp hmv, hw⟩, hv⟩
  · rintro ⟨⟨mv, hmv, hw⟩, hv⟩
    exact ⟨⟨mv, moves_swap_mem.mpr hmv, hw⟩, hv⟩

theorem reach_swap {a b : Int} {s g : Pos} {n : Nat} {v : Pos}
    (h : Reach (Ability.mk a b) s g n v) : Reach (Ability.mk b a) s g n v := by
  induction h with
  | refl => exact Reach.refl
  | step _ hedge ih => exact ih.step (valid_moves_swap.mp hedge)

theorem isDist_swap {a b : Int} {s g : Pos} {v : Pos} {d : Nat}
    (h : IsDist (Ability.mk a b) s g v d) : IsDist (Ability.mk b a) s g v d :=
  ⟨reach_swap h.1, fun j hj => h.2 j (reach_swap hj)⟩

/-- Swapping the two magnitudes never changes the reported step count (the
move sets are equal as sets, hence so are all distances). -/
theorem step_count_swap (a b : Int) (s g : Pos) :
    ∃ p q, (Ability.mk a b).find_shortest_path s g = some p ∧
      (Ability.mk b a).find_shortest_path s g = some q ∧
      Path.step_count p = Path.step_count q := by
  obtain ⟨p, hp, hp1, hp2⟩ := find_shortest_path_spec (Ability.mk a b) s g
  obtain ⟨q, hq, hq1, hq2⟩ := find_shortest_path_spec (Ability.mk b a) s g
  refine ⟨p, q, hp, hq, ?_⟩
  by_cases hr : Reachable (Ability.mk a b) s g g
  · have hr' : Reachable (Ability.mk b a) s g g :=
      Exists.imp (fun n hn => reach_swap hn) hr
    obtain ⟨n, hn⟩ := id hr
    obtain ⟨j, hj, _⟩ := exists_isDist hn
    have hlp := (hp2 hr).2.1 j hj
    have hlq := (hq2 hr').2.1 j (isDist_swap hj)
    have hpne : p ≠ [] := movePath_ne_nil (hp2 hr).1
    have hqne : q ≠ [] := movePath_ne_nil (hq2 hr').1
    rw [step_count_of_ne_nil hpne, step_count_of_ne_nil hqne, hlp, hlq]
  · have hr' : ¬Reachable (Ability.mk b a) s g g := by
      intro ⟨n, hn⟩
      exact hr ⟨n, reach_swap hn⟩
    rw [hp1 hr, hq1 hr']

/-- Every position of a move path other than its head is a valid board
position. -/
theorem chain'_tail_valid {k : Ability} {g : Pos} :
    ∀ (p : List Pos), List.Chain' (fun u v => v ∈ k.valid_moves u g) p →
      ∀ x ∈ p.tail, Position.is_valid x g = true := by
  intro p
  induction p with
  | nil => intro _ x hx; cases hx
  | cons a rest ih =>
    intro hc x hx
    cases rest with
    | nil => cases hx
    | cons b rest' =>
      rw [List.chain'_cons] at hc
      obtain ⟨hedge, hc'⟩ := hc
      rcases List.mem_cons.mp hx with rfl | hx'
      · exact valid_of_mem_valid_moves hedge
      · exact ih hc' x hx'

/-- Totality of `report`: the BFS always returns a path object. -/
theorem report_total (knight : Ability) (goal : Pos) : ∃ v, report knight goal = some v := by
  obtain ⟨p, hp, _, _⟩ := find_shortest_path_spec knight (1, 1) goal
  exact ⟨Path.step_count p, by rw [report, hp]; rfl⟩

theorem mapM_option_total {α β : Type} (f : α → Option β) (l : List α)
    (h : ∀ a ∈ l, ∃ b, f a = some b) :
    ∃ bs, l.mapM f = some bs ∧ List.Forall₂ (fun a b => f a = some b) l bs := by
  induction l with
  | nil => exact ⟨[], rfl, List.Forall₂.nil⟩
  | cons a l ih =>
    obtain ⟨b, hb⟩ := h a (List.mem_cons_self _ _)
    obtain ⟨bs, hbs, hall⟩ := ih (fun x hx => h x (List.mem_cons_of_mem _ hx))
    refine ⟨b :: bs, ?_, List.Forall₂.cons hb hall⟩
    rw [List.mapM_cons, hb, hbs]
    rfl

/-- `run` on an in-range input: succeeds, stores `n - 1` as the matrix
dimension, and collects exactly one report per knight, in order. -/
theorem run_spec (n : Int) (h5 : 5 ≤ n) (h25 : n ≤ 25) :
    ∃ R : Reports, run n = some R ∧ R.n = n - 1 ∧
      List.Forall₂ (fun knight v => report knight (n, n) = some v) (knightList n) R.data := by
  obtain ⟨bs, hbs, hall⟩ :=
    mapM_option_total _ (knightList n) (fun a _ => report_total a (n, n))
  refine ⟨⟨bs, n - 1⟩, ?_, rfl, hall⟩
  rw [run, if_pos ⟨h5, h25⟩, hbs]

/-!
## Diagonal leaper distances (for C8)
-/

theorem diag_reach (n : Int) :
    ∀ m : Nat, 1 + (m : Int) ≤ n →
      Reach (Ability.mk 1 1) (1, 1) (n, n) m (1 + (m : Int), 1 + (m : Int)) := by
  intro m
  induction m with
  | zero => intro _; simpa using Reach.refl
  | succ m ih =>
    intro hm
    have hm' : 1 + (m : Int) ≤ n := by push_cast at hm ⊢; omega
    refine (ih hm').step ?_
    rw [mem_valid_moves]
    refine ⟨⟨(1, 1), ?_, ?_⟩, ?_⟩
    · rw [moves_eq_of_eq]
      simp
    · simp only [Prod.mk.injEq]
      constructor <;> (push_cast; ring)
    · rw [is_valid_iff]
      refine ⟨by push_cast; omega, by push_cast; omega, by push_cast; omega, by push_cast; omega⟩

theorem diag_reach_row_bound {n : Int} :
    ∀ {j : Nat} {v : Pos}, Reach (Ability.mk 1 1) (1, 1) (n, n) j v → v.1 ≤ 1 + (j : Int) := by
  intro j v h
  induction h with
  | refl => simp
  | @step m u w hu hedge ih =>
    rw [mem_valid_moves] at hedge
    obtain ⟨⟨mv, hmv, hw⟩, _⟩ := hedge
    rw [moves_eq_of_eq] at hmv
    simp only [List.mem_cons, List.not_mem_nil, or_false] at hmv
    have h1 : mv.1 = 1 ∨ mv.1 = -1 := by
      rcases hmv with rfl | rfl | rfl | rfl <;> simp
    have : w.1 = u.1 + mv.1 := by rw [← hw]
    push_cast
    omega

theorem diag_isDist {n : Int} (hn : 1 ≤ n) :
    IsDist (Ability.mk 1 1) (1, 1) (n, n) (n, n) (n - 1).toNat := by
  constructor
  · have h := diag_reach n (n - 1).toNat (by omega)
    have he : (1 + ((n - 1).toNat : Int)) = n := by omega
    rw [he] at h
    exact h
  · intro j hj
    have := diag_reach_row_bound hj
    simp only [] at this
    omega

/-!
## Claim theorems (part 1)
-/

/-- C1: for a leaper `Ability(a, b)` with `a, b ≥ 1` and a board corner
`goal = (n, n)` with `n ≥ 1`, if the goal is reachable from `(1, 1)` via the
leaper's valid moves then `find_shortest_path` returns a non-empty path that
begins at the start, ends at the goal, steps only by the leaper's move
offsets, stays within the board, and has the minimum number of edges over all
such paths. -/
theorem C1_find_shortest_path_correct (a b n : Int) (ha : 1 ≤ a) (hb : 1 ≤ b) (hn : 1 ≤ n)
    (hreach : Reachable (Ability.mk a b) (1, 1) (n, n) (n, n)) :
    ∃ p, (Ability.mk a b).find_shortest_path (1, 1) (n, n) = some p ∧
      p ≠ [] ∧ p.head? = some (1, 1) ∧ p.getLast? = some (n, n) ∧
      List.Chain' (fun u v => ∃ mv ∈ (Ability.mk a b).moves, (u.1 + mv.1, u.2 + mv.2) = v) p ∧
      (∀ x ∈ p, Position.is_valid x (n, n) = true) ∧
      (∀ q, IsMovePath (Ability.mk a b) (n, n) q (1, 1) (n, n) → p.length ≤ q.length) := by
  obtain ⟨p, hp, _, h2⟩ := find_shortest_path_spec (Ability.mk a b) (1, 1) (n, n)
  obtain ⟨hpath, hlen, hmin⟩ := h2 hreach
  obtain ⟨hh, hl, hc⟩ := hpath
  refine ⟨p, hp, movePath_ne_nil ⟨hh, hl, hc⟩, hh, hl, ?_, ?_, hmin⟩
  · exact List.Chain'.imp (fun u v hx => (mem_valid_moves.mp hx).1) hc
  · intro x hx
    have hcons := List.cons_head?_tail hh
    rw [← hcons] at hx
    rcases List.mem_cons.mp hx with rfl | hx'
    · rw [is_valid_iff]
      refine ⟨by omega, by omega, by omega, by omega⟩
    · exact chain'_tail_valid p hc x hx'

/-- Witness for C1 at the ordinary knight `Ability(1, 2)` on the 5-board. -/
theorem C1_witness :
    ((1 : Int) ≤ 1 ∧ (1 : Int) ≤ 2 ∧ (1 : Int) ≤ 5 ∧
      Reachable (Ability.mk 1 2) (1, 1) (5, 5) (5, 5)) ∧
    (∃ p, (Ability.mk 1 2).find_shortest_path (1, 1) (5, 5) = some p ∧
      p ≠ [] ∧ p.head? = some (1, 1) ∧ p.getLast? = some (5, 5) ∧
      List.Chain' (fun u v => ∃ mv ∈ (Ability.mk 1 2).moves, (u.1 + mv.1, u.2 + mv.2) = v) p ∧
      (∀ x ∈ p, Position.is_valid x (5, 5) = true) ∧
      (∀ q, IsMovePath (Ability.mk 1 2) (5, 5) q (1, 1) (5, 5) → p.length ≤ q.length)) :=
  have h1 : ((2, 3) : Pos) ∈ (Ability.mk 1 2).valid_moves (1, 1) (5, 5) := by decide
  have h2 : ((1, 5) : Pos) ∈ (Ability.mk 1 2).valid_moves (2, 3) (5, 5) := by decide
  have h3 : ((3, 4) : Pos) ∈ (Ability.mk 1 2).valid_moves (1, 5) (5, 5) := by decide
  have h4 : ((5, 5) : Pos) ∈ (Ability.mk 1 2).valid_moves (3, 4) (5, 5) := by decide
  have hreach : Reachable (Ability.mk 1 2) (1, 1) (5, 5) (5, 5) :=
    ⟨4, (((Reach.refl.step h1).step h2).step h3).step h4⟩
  ⟨⟨by decide, by decide, by decide, hreach⟩,
    C1_find_shortest_path_correct 1 2 5 (by decide) (by decide) (by decide) hreach⟩

/-- C3: `run n` fails (returns the `InvalidInput` error, modelled `none`)
exactly when `n` lies outside `[5, 25]`; in particular it fails for `n = 4`
and `n = 26` and succeeds on the whole range. -/
theorem C3_run_invalid_iff (n : Int) : run n = none ↔ n < 5 ∨ 25 < n := by
  constructor
  · intro h
    by_contra hc
    push_neg at hc
    obtain ⟨R, hR, _, _⟩ := run_spec n (by omega) (by omega)
    rw [hR] at h
    cases h
  · intro h
    rw [run, if_neg (by omega)]

/-- C6: for `a, b ≥ 1` the move set of `Ability(a, b)` is exactly the eight
sign/axis-swap combinations of the magnitudes, with exactly 8 distinct
offsets when `a ≠ b` and exactly 4 when `a = b`. -/
theorem C6_moves_spec (a b : Int) (ha : 1 ≤ a) (hb : 1 ≤ b) :
    (Ability.mk a b).moves.toFinset
      = ({(a, b), (a, -b), (-a, b), (-a, -b),
          (b, a), (b, -a), (-b, a), (-b, -a)} : Finset (Int × Int)) ∧
    (Ability.mk a b).moves.toFinset.card = if a = b then 4 else 8 := by
  by_cases hab : a = b
  · subst hab
    rw [moves_eq_of_eq]
    constructor
    · ext x
      simp only [List.toFinset_cons, List.toFinset_nil, insert_emptyc_eq,
        Finset.mem_insert, Finset.mem_singleton]
      tauto
    · rw [if_pos rfl]
      have hnd : ([(a, a), (a, -a), (-a, a), (-a, -a)] : List Move).Nodup := by
        simp [List.nodup_cons, Prod.ext_iff] <;> omega
      rw [List.toFinset_card_of_nodup hnd]
      rfl
  · rw [moves_eq_of_ne hab]
    constructor
    · ext x
      simp only [List.toFinset_cons, List.toFinset_nil, insert_emptyc_eq,
        Finset.mem_insert, Finset.mem_singleton] <;> tauto
    · rw [if_neg hab]
      have hnd : ([(a, b), (a, -b), (-a, b), (-a, -b),
          (b, a), (b, -a), (-b, a), (-b, -a)] : List Move).Nodup := by
        simp [List.nodup_cons, Prod.ext_iff] <;> omega
      rw [List.toFinset_card_of_nodup hnd]
      rfl

/-- Witness for C6 at the ordinary knight `Ability(1, 2)`. -/
theorem C6_witness :
    ((1 : Int) ≤ 1 ∧ (1 : Int) ≤ 2) ∧
    ((Ability.mk 1 2).moves.toFinset
        = ({(1, 2), (1, -2), (-1, 2), (-1, -2),
            (2, 1), (2, -1), (-2, 1), (-2, -1)} : Finset (Int × Int)) ∧
      (Ability.mk 1 2).moves.toFinset.card = if (1 : Int) = 2 then 4 else 8) :=
  ⟨⟨by decide, by decide⟩, C6_moves_spec 1 2 (by decide) (by decide)⟩

/-- C7: `find_shortest_path` always returns a value (never an error); the
returned path is empty exactly when the goal is unreachable from the start
via the leaper's valid moves, and `step_count` is the sequence length minus
one for a non-empty path and the sentinel `-1` for the empty path. -/
theorem C7_empty_iff_unreachable (k : Ability) (s g : Pos) :
    ∃ p, k.find_shortest_path s g = some p ∧
      (p = [] ↔ ¬Reachable k s g g) ∧
      Path.step_count p = if p = [] then -1 else ((p.length - 1 : Nat) : Int) := by
  obtain ⟨p, hp, h1, h2⟩ := find_shortest_path_spec k s g
  refine ⟨p, hp, ⟨?_, h1⟩, ?_⟩
  · intro hpnil hreach
    exact movePath_ne_nil (h2 hreach).1 hpnil
  · by_cases hnil : p = []
    · rw [if_pos hnil, hnil]
      rfl
    · rw [if_neg hnil, step_count_of_ne_nil hnil]

/-- The diagonal leaper's step count, as a reusable lemma. -/
theorem diag_fsp_step (n : Int) (hn : 2 ≤ n) :
    ∃ p, (Ability.mk 1 1).find_shortest_path (1, 1) (n, n) = some p ∧
      Path.step_count p = n - 1 := by
  have hd := diag_isDist (show (1 : Int) ≤ n by omega)
  have hreach : Reachable (Ability.mk 1 1) (1, 1) (n, n) (n, n) := ⟨(n - 1).toNat, hd.1⟩
  obtain ⟨p, hp, _, h2⟩ := find_shortest_path_spec (Ability.mk 1 1) (1, 1) (n, n)
  obtain ⟨hpath, hlen, _⟩ := h2 hreach
  have hl := hlen _ hd
  refine ⟨p, hp, ?_⟩
  rw [step_count_of_ne_nil (movePath_ne_nil hpath), hl]
  simp only [Nat.add_sub_cancel]
  omega

/-- C8: the diagonal leaper `Ability(1, 1)` reaches `(n, n)` from `(1, 1)` in
exactly `n - 1` steps, for every `n ≥ 2`. -/
theorem C8_diagonal_steps (n : Int) (hn : 2 ≤ n) :
    ∃ p, (Ability.mk 1 1).find_shortest_path (1, 1) (n, n) = some p ∧
      Path.step_count p = n - 1 :=
  diag_fsp_step n hn

/-- Witness for C8 at `n = 5`: step count 4. -/
theorem C8_witness :
    (2 : Int) ≤ 5 ∧
    (∃ p, (Ability.mk 1 1).find_shortest_path (1, 1) (5, 5) = some p ∧
      Path.step_count p = 5 - 1) :=
  ⟨by decide, C8_diagonal_steps 5 (by decide)⟩

/-- C10 (counterexample to the claim as stated): the claim quantifies over
everything `find_shortest_path` touches, but an out-of-bounds start is itself
enqueued, visited, and — here — returned in the path: from start `(5, 5)`
with goal `(4, 4)`, the returned path contains `(5, 5)`, which violates
`row ≤ goal.row`. -/
theorem C10_counterexample :
    ∃ p, (Ability.mk 1 1).find_shortest_path (5, 5) (4, 4) = some p ∧
      ∃ x ∈ p, ¬(x.1 ≤ (4 : Int) ∧ x.2 ≤ (4 : Int)) := by
  refine ⟨[(5, 5), (4, 4)], by decide, ⟨(5, 5), by decide, by decide⟩⟩

/-- C10 (amended): provided the start itself lies within the rectangle whose
far corner is the goal, the search is confined to that rectangle: every move
target the loop can enqueue or visit is valid for board size `goal`, and
every position of the returned path is. -/
theorem C10_board_confinement (k : Ability) (s g : Pos)
    (hs : Position.is_valid s g = true) :
    (∀ (current w : Pos), w ∈ k.valid_moves current g → Position.is_valid w g = true) ∧
    ∃ p, k.find_shortest_path s g = some p ∧ ∀ x ∈ p, Position.is_valid x g = true := by
  refine ⟨fun current w hw => valid_of_mem_valid_moves hw, ?_⟩
  obtain ⟨p, hp, h1, h2⟩ := find_shortest_path_spec k s g
  refine ⟨p, hp, ?_⟩
  by_cases hr : Reachable k s g g
  · obtain ⟨⟨hh, hl, hc⟩, _, _⟩ := h2 hr
    intro x hx
    have hcons := List.cons_head?_tail hh
    rw [← hcons] at hx
    rcases List.mem_cons.mp hx with rfl | hx'
    · exact hs
    · exact chain'_tail_valid p hc x hx'
  · rw [h1 hr]
    intro x hx
    cases hx

/-- Witness for the amended C10 at the diagonal leaper on the 4-board. -/
theorem C10_witness :
    Position.is_valid (1, 1) (4, 4) = true ∧
    ((∀ (current w : Pos),
        w ∈ (Ability.mk 1 1).valid_moves current (4, 4) →
          Position.is_valid w (4, 4) = true) ∧
      ∃ p, (Ability.mk 1 1).find_shortest_path (1, 1) (4, 4) = some p ∧
        ∀ x ∈ p, Position.is_valid x (4, 4) = true) :=
  ⟨by decide, C10_board_confinement (Ability.mk 1 1) (1, 1) (4, 4) (by decide)⟩

/-!
## The report matrix: cells, upper triangle, indices
-/




theorem idxOf_cons_self (x : Int × Int) (l : List (Int × Int)) : idxOf x (x :: l) = 0 := by
  simp [idxOf]

theorem idxOf_append_of_not_mem {x : Int × Int} {l1 : List (Int × Int)}
    (h : x ∉ l1) (l2 : List (Int × Int)) : idxOf x (l1 ++ l2) = l1.length + idxOf x l2 := by
  induction l1 with
  | nil => simp
  | cons y l1 ih =>
    have hyx : y ≠ x := fun he => h (he ▸ List.mem_cons_self y l1)
    rw [List.cons_append, idxOf, if_neg hyx, ih (fun hm => h (List.mem_cons_of_mem _ hm))]
    simp only [List.length_cons]
    omega

theorem idxOf_lt_length {x : Int × Int} {l : List (Int × Int)} (h : x ∈ l) :
    idxOf x l < l.length := by
  induction l with
  | nil => cases h
  | cons y l ih =>
    rw [idxOf]
    by_cases hyx : y = x
    · rw [if_pos hyx]
      simp
    · rw [if_neg hyx]
      have hx : x ∈ l := by
        rcases List.mem_cons.mp h with he | hm
        · exact absurd he.symm hyx
        · exact hm
      have := ih hx
      simp only [List.length_cons]
      omega

theorem getElem_idxOf {x : Int × Int} {l : List (Int × Int)} (h : idxOf x l < l.length) :
    l[idxOf x l] = x := by
  induction l with
  | nil => simp at h
  | cons y l ih =>
    by_cases hyx : y = x
    · have h0 : idxOf x (y :: l) = 0 := by rw [idxOf, if_pos hyx]
      simp only [h0] at h ⊢
      simpa using hyx
    · have hs : idxOf x (y :: l) = idxOf x l + 1 := by rw [idxOf, if_neg hyx]
      simp only [hs] at h ⊢
      simp only [List.getElem_cons_succ]
      exact ih (by simpa using h)


theorem tri_mul_two (k : Nat) : 2 * tri k = k * (k + 1) := by
  induction k with
  | zero => rfl
  | succ k ih =>
    rw [tri, Nat.mul_add, ih]
    ring

theorem sortPair_comm (r c : Int) : sortPair (r, c) = sortPair (c, r) := by
  rw [sortPair, sortPair]
  rcases lt_trichotomy r c with h | h | h
  · rw [if_pos (by simpa using le_of_lt h), if_neg (by simpa using h)]
  · subst h
    simp
  · rw [if_neg (by simpa using h), if_pos (by simpa using le_of_lt h)]

theorem mem_cellList {m : Int} {rc : Int × Int} :
    rc ∈ cellList m ↔ 1 ≤ rc.1 ∧ rc.1 ≤ m ∧ 1 ≤ rc.2 ∧ rc.2 ≤ m := by
  obtain ⟨r, c⟩ := rc
  simp only [cellList, List.mem_flatMap, List.mem_map, mem_rangeIncl, Prod.mk.injEq]
  constructor
  · rintro ⟨a, ⟨h1, h2⟩, b, ⟨h3, h4⟩, rfl, rfl⟩
    exact ⟨h1, h2, h3, h4⟩
  · rintro ⟨h1, h2, h3, h4⟩
    exact ⟨r, ⟨h1, h2⟩, c, ⟨h3, h4⟩, rfl, rfl⟩

theorem mem_upperCells {m : Int} {rc : Int × Int} :
    rc ∈ upperCells m ↔ 1 ≤ rc.1 ∧ rc.1 ≤ rc.2 ∧ rc.2 ≤ m := by
  rw [upperCells, List.mem_filter, mem_cellList]
  simp only [decide_eq_true_eq]
  omega

theorem pairwise_flatMap {α β : Type} (R : β → β → Prop) (f : α → List β) :
    ∀ (l : List α), (∀ a ∈ l, (f a).Pairwise R) →
      l.Pairwise (fun a b => ∀ x ∈ f a, ∀ y ∈ f b, R x y) → (l.flatMap f).Pairwise R := by
  intro l
  induction l with
  | nil => intro _ _; simp
  | cons a l ih =>
    intro h1 h2
    rw [List.flatMap_cons, List.pairwise_append]
    rw [List.pairwise_cons] at h2
    refine ⟨h1 a (by simp), ih (fun x hx => h1 x (by simp [hx])) h2.2, ?_⟩
    intro x hx y hy
    rw [List.mem_flatMap] at hy
    obtain ⟨b, hb, hyb⟩ := hy
    exact h2.1 b hb x hx y hyb

/-- The cells of `finalize`'s double loop come in strict row-major order. -/
theorem cellList_pairwise (m : Int) :
    (cellList m).Pairwise (fun x y => x.1 < y.1 ∨ (x.1 = y.1 ∧ x.2 < y.2)) := by
  rw [cellList]
  apply pairwise_flatMap
  · intro r _
    refine List.Pairwise.map _ ?_ (rangeIncl_pairwise 1 m)
    intro a b hab
    exact Or.inr ⟨rfl, hab⟩
  · refine List.Pairwise.imp ?_ (rangeIncl_pairwise 1 m)
    intro a b hab x hx y hy
    rw [List.mem_map] at hx hy
    obtain ⟨c1, _, rfl⟩ := hx
    obtain ⟨c2, _, rfl⟩ := hy
    exact Or.inl hab

theorem cellList_nodup (m : Int) : (cellList m).Nodup := by
  refine List.Pairwise.imp ?_ (cellList_pairwise m)
  intro a b hab
  intro he
  subst he
  rcases hab with h | h
  · omega
  · omega

/-- Row-major slots are within the `m × m` grid. -/
theorem get_idx_lt {m r c : Int} (h1 : 1 ≤ r) (h2 : r ≤ m) (h3 : 1 ≤ c) (h4 : c ≤ m) :
    Reports.get_idx m r c < (m * m).toNat := by
  rw [Reports.get_idx]
  have ha : (r - 1) * m ≤ (m - 1) * m := mul_le_mul_of_nonneg_right (by omega) (by omega)
  have hb : (m - 1) * m = m * m - m := by ring
  have hc : (0 : Int) ≤ (m - 1) * m := mul_nonneg (by omega) (by omega)
  omega

/-- Row-major slots are distinct across distinct in-range cells. -/
theorem get_idx_inj {m r c r' c' : Int}
    (h1 : 1 ≤ r) (h2 : r ≤ m) (h3 : 1 ≤ c) (h4 : c ≤ m)
    (h1' : 1 ≤ r') (h2' : r' ≤ m) (h3' : 1 ≤ c') (h4' : c' ≤ m)
    (h : Reports.get_idx m r c = Reports.get_idx m r' c') : r = r' ∧ c = c' := by
  rw [Reports.get_idx, Reports.get_idx] at h
  have e1 : (0 : Int) ≤ (r - 1) * m + (c - 1) :=
    add_nonneg (mul_nonneg (by omega) (by omega)) (by omega)
  have e2 : (0 : Int) ≤ (r' - 1) * m + (c' - 1) :=
    add_nonneg (mul_nonneg (by omega) (by omega)) (by omega)
  have h' : (r - 1) * m + (c - 1) = (r' - 1) * m + (c' - 1) := by omega
  rcases lt_trichotomy r r' with hlt | heq | hgt
  · exfalso
    have hstep : (r - 1 + 1) * m ≤ (r' - 1) * m :=
      mul_le_mul_of_nonneg_right (by omega) (by omega)
    have hexp : (r - 1 + 1) * m = (r - 1) * m + m := by ring
    omega
  · constructor
    · exact heq
    · subst heq
      omega
  · exfalso
    have hstep : (r' - 1 + 1) * m ≤ (r - 1) * m :=
      mul_le_mul_of_nonneg_right (by omega) (by omega)
    have hexp : (r' - 1 + 1) * m = (r' - 1) * m + m := by ring
    omega

theorem list_getD_set_self {l : List Int} {i : Nat} {v : Int} (h : i < l.length) :
    (l.set i v).getD i 0 = v := by
  rw [List.getD_eq_getElem _ _ (by simpa using h)]
  exact List.getElem_set_self (by simpa using h)

theorem list_getD_set_ne {l : List Int} {i j : Nat} {v : Int} (h : i ≠ j) :
    (l.set i v).getD j 0 = l.getD j 0 := by
  rcases Nat.lt_or_ge j l.length with hj | hj
  · rw [List.getD_eq_getElem _ _ (by simpa using hj), List.getD_eq_getElem _ _ hj]
    exact List.getElem_set_ne h _
  · rw [List.getD_eq_default _ _ (by simpa using hj), List.getD_eq_default _ _ hj]

/-!
## Counting the upper-triangle cells
-/

theorem filter_upper_row_all {lo hi r : Int} (h : r ≤ lo) :
    ((rangeIncl lo hi).map (fun c => (r, c))).filter (fun rc => decide (rc.1 ≤ rc.2))
      = (rangeIncl lo hi).map (fun c => (r, c)) := by
  apply List.filter_eq_self.mpr
  intro x hx
  rw [List.mem_map] at hx
  obtain ⟨c, hc, rfl⟩ := hx
  rw [mem_rangeIncl] at hc
  simp only [decide_eq_true_eq]
  omega

theorem filter_upper_row_len {hi r : Int} :
    ∀ (k : Nat) (lo : Int), (hi + 1 - lo).toNat = k → lo ≤ r →
      (((rangeIncl lo hi).map (fun c => (r, c))).filter
          (fun rc => decide (rc.1 ≤ rc.2))).length = (hi + 1 - r).toNat := by
  intro k
  induction k with
  | zero =>
    intro lo hk hle
    rw [rangeIncl_eq_nil (by omega)]
    simp only [List.map_nil, List.filter_nil, List.length_nil]
    omega
  | succ k ih =>
    intro lo hk hle
    have hlo : lo ≤ hi := by omega
    rw [rangeIncl_cons hlo, List.map_cons, List.filter_cons]
    by_cases hr : r ≤ lo
    · rw [if_pos (by simpa using hr)]
      rw [filter_upper_row_all (by omega : r ≤ lo + 1)]
      simp only [List.length_cons, List.length_map, rangeIncl_length]
      omega
    · rw [if_neg (by simpa using hr)]
      exact ih (lo + 1) (by omega) (by omega)

theorem upper_len_from (m : Int) :
    ∀ (k : Nat) (lo : Int), 1 ≤ lo → (m + 1 - lo).toNat = k →
      (((rangeIncl lo m).flatMap (fun r => (rangeIncl 1 m).map (fun c => (r, c)))).filter
          (fun rc => decide (rc.1 ≤ rc.2))).length = tri k := by
  intro k
  induction k with
  | zero =>
    intro lo h1 hk
    rw [rangeIncl_eq_nil (by omega)]
    rfl
  | succ k ih =>
    intro lo h1 hk
    rw [rangeIncl_cons (by omega : lo ≤ m), List.flatMap_cons, List.filter_append,
      List.length_append]
    rw [filter_upper_row_len ((m + 1 - 1).toNat) 1 rfl h1]
    rw [ih (lo + 1) (by omega) (by omega)]
    rw [tri]
    omega

/-- The number of upper-triangle cells of the `m × m` traversal is the
`m`-th triangular number. -/
theorem upperCells_length (m : Int) : (upperCells m).length = tri m.toNat := by
  rcases Nat.lt_or_ge 0 (m.toNat) with h | h
  · exact upper_len_from m m.toNat 1 (by omega) (by omega)
  · have hm : m ≤ 0 := by omega
    have h0 : m.toNat = 0 := by omega
    rw [upperCells, cellList, rangeIncl_eq_nil (by omega), h0]
    rfl

/-- The knight list of `run` enumerates exactly the upper-triangle cells, in
the same order. -/
theorem knightList_eq (n : Int) :
    knightList n = (upperCells (n - 1)).map (fun rc => Ability.mk rc.1 rc.2) := by
  rw [knightList, upperCells, cellList, List.filter_flatMap, List.map_flatMap]
  congr 1
  funext r
  rw [List.filter_map, List.map_map]
  rfl

theorem forall₂_getElem {α β : Type} {R : α → β → Prop} {l1 : List α} {l2 : List β}
    (h : List.Forall₂ R l1 l2) :
    ∀ (i : Nat) (h1 : i < l1.length) (h2 : i < l2.length), R l1[i] l2[i] := by
  induction h with
  | nil => intro i h1 _; simp at h1
  | cons ha hl ih =>
    intro i h1 h2
    cases i with
    | zero => simpa using ha
    | succ i => simpa using ih i (by simpa using h1) (by simpa using h2)

/-!
## The `finalize` traversal
-/

/-- Invariant induction over the cell traversal of `Reports::finalize`:
processing the remaining cells `cs` after `done`, with the queue advanced by
the number of upper cells already consumed, succeeds and fills every slot
with the report of its sorted index pair. -/
theorem fillCells_go (m : Int) (D : List Int) (hD : (upperCells m).length ≤ D.length) :
    ∀ (cs done : List (Int × Int)) (arr : List Int),
      cellList m = done ++ cs →
      arr.length = (m * m).toNat →
      (∀ x ∈ done, arr.getD (Reports.get_idx m x.1 x.2) 0
          = D.getD (idxOf (sortPair x) (upperCells m)) 0) →
      ∃ arr', fillCells m cs
          (D.drop ((done.filter (fun rc => decide (rc.1 ≤ rc.2))).length)) arr = some arr' ∧
        arr'.length = (m * m).toNat ∧
        ∀ x ∈ cellList m, arr'.getD (Reports.get_idx m x.1 x.2) 0
          = D.getD (idxOf (sortPair x) (upperCells m)) 0 := by
  intro cs
  induction cs with
  | nil =>
    intro done arr hsplit hlen hdone
    refine ⟨arr, rfl, hlen, ?_⟩
    intro x hx
    apply hdone
    rwa [hsplit, List.append_nil] at hx
  | cons hd cs ih =>
    obtain ⟨r, c⟩ := hd
    intro done arr hsplit hlen hdone
    have hmem_rc : (r, c) ∈ cellList m := by
      rw [hsplit]
      exact List.mem_append_right _ (List.mem_cons_self _ _)
    have hrange := mem_cellList.mp hmem_rc
    have hnodup := cellList_nodup m
    rw [hsplit] at hnodup
    have hrc_not_done : (r, c) ∉ done := by
      intro hd'
      rw [List.nodup_append] at hnodup
      exact hnodup.2.2 hd' (List.mem_cons_self _ _)
    have hold : ∀ x ∈ done, ∀ (v : Int),
        (arr.set (Reports.get_idx m r c) v).getD (Reports.get_idx m x.1 x.2) 0
          = arr.getD (Reports.get_idx m x.1 x.2) 0 := by
      intro x hx v
      have hxr := mem_cellList.mp (by rw [hsplit]; exact List.mem_append_left _ hx)
      apply list_getD_set_ne
      intro he
      obtain ⟨h1, h2⟩ := get_idx_inj hrange.1 hrange.2.1 hrange.2.2.1 hrange.2.2.2
        hxr.1 hxr.2.1 hxr.2.2.1 hxr.2.2.2 he
      apply hrc_not_done
      have : x = (r, c) := by
        obtain ⟨x1, x2⟩ := x
        simp only [Prod.mk.injEq]
        exact ⟨h1.symm, h2.symm⟩
      rwa [← this]
    have hidx_lt := get_idx_lt hrange.1 hrange.2.1 hrange.2.2.1 hrange.2.2.2
    have hsplit' : cellList m = (done ++ [(r, c)]) ++ cs := by rw [hsplit]; simp
    by_cases hupper : r ≤ c
    · -- upper cell: pop the next report into slot (r, c)
      have hfilter_split : upperCells m
          = done.filter (fun rc => decide (rc.1 ≤ rc.2))
            ++ ((r, c) :: cs).filter (fun rc => decide (rc.1 ≤ rc.2)) := by
        rw [upperCells, hsplit, List.filter_append]
      have hnotmem_f : (r, c) ∉ done.filter (fun rc => decide (rc.1 ≤ rc.2)) :=
        fun hmem => hrc_not_done (List.mem_of_mem_filter hmem)
      have hidx_eq : idxOf ((r, c)) (upperCells m)
          = (done.filter (fun rc => decide (rc.1 ≤ rc.2))).length := by
        rw [hfilter_split, idxOf_append_of_not_mem hnotmem_f, List.filter_cons,
          if_pos (by simpa using hupper), idxOf_cons_self]
        omega
      have hmem_up : (r, c) ∈ upperCells m :=
        mem_upperCells.mpr ⟨hrange.1, hupper, hrange.2.2.2⟩
      have ht_lt : (done.filter (fun rc => decide (rc.1 ≤ rc.2))).length < D.length := by
        have := idxOf_lt_length hmem_up
        omega
      have hdrop := List.drop_eq_getElem_cons ht_lt
      have hred : fillCells m ((r, c) :: cs)
          (D[(done.filter (fun rc => decide (rc.1 ≤ rc.2))).length]
            :: D.drop ((done.filter (fun rc => decide (rc.1 ≤ rc.2))).length + 1)) arr
          = fillCells m cs
            (D.drop ((done.filter (fun rc => decide (rc.1 ≤ rc.2))).length + 1))
            (arr.set (Reports.get_idx m r c)
              D[(done.filter (fun rc => decide (rc.1 ≤ rc.2))).length]) := by
        simp [fillCells, hupper]
      have hfilterlen : ((done ++ [(r, c)]).filter (fun rc => decide (rc.1 ≤ rc.2))).length
          = (done.filter (fun rc => decide (rc.1 ≤ rc.2))).length + 1 := by
        rw [List.filter_append, List.length_append]
        simp [hupper]
      have hlen' : (arr.set (Reports.get_idx m r c)
          D[(done.filter (fun rc => decide (rc.1 ≤ rc.2))).length]).length = (m * m).toNat := by
        rw [List.length_set]
        exact hlen
      have hdone' : ∀ x ∈ done ++ [(r, c)],
          (arr.set (Reports.get_idx m r c)
              D[(done.filter (fun rc => decide (rc.1 ≤ rc.2))).length]).getD
            (Reports.get_idx m x.1 x.2) 0
            = D.getD (idxOf (sortPair x) (upperCells m)) 0 := by
        intro x hx
        rcases List.mem_append.mp hx with hx | hx
        · rw [hold x hx]
          exact hdone x hx
        · rw [List.mem_singleton] at hx
          subst hx
          rw [list_getD_set_self (by rw [hlen]; exact hidx_lt)]
          have hsort : sortPair (r, c) = (r, c) := by rw [sortPair, if_pos hupper]
          rw [hsort, hidx_eq, List.getD_eq_getElem _ _ ht_lt]
      obtain ⟨arr', hfc, hlen2, hspec⟩ := ih (done ++ [(r, c)]) _ hsplit' hlen' hdone'
      rw [hfilterlen] at hfc
      exact ⟨arr', by rw [hdrop, hred]; exact hfc, hlen2, hspec⟩
    · -- lower cell: copy the mirror slot (c, r), already written
      have hcr_range : 1 ≤ c ∧ c ≤ m ∧ 1 ≤ r ∧ r ≤ m :=
        ⟨hrange.2.2.1, hrange.2.2.2, hrange.1, hrange.2.1⟩
      have hmem_cr : (c, r) ∈ cellList m := mem_cellList.mpr hcr_range
      have hcr_done : (c, r) ∈ done := by
        rw [hsplit] at hmem_cr
        rcases List.mem_append.mp hmem_cr with h | h
        · exact h
        · exfalso
          rcases List.mem_cons.mp h with h | h
          · have h1 : c = r := congrArg Prod.fst h
            omega
          · have hp := cellList_pairwise m
            rw [hsplit] at hp
            have hp2 := (List.pairwise_append.mp hp).2.1
            rw [List.pairwise_cons] at hp2
            have := hp2.1 _ h
            simp only [] at this
            omega
      have hred : fillCells m ((r, c) :: cs)
          (D.drop ((done.filter (fun rc => decide (rc.1 ≤ rc.2))).length)) arr
          = fillCells m cs
            (D.drop ((done.filter (fun rc => decide (rc.1 ≤ rc.2))).length))
            (arr.set (Reports.get_idx m r c) (arr.getD (Reports.get_idx m c r) 0)) := by
        simp [fillCells, hupper]
      have hfilterlen : ((done ++ [(r, c)]).filter (fun rc => decide (rc.1 ≤ rc.2))).length
          = (done.filter (fun rc => decide (rc.1 ≤ rc.2))).length := by
        rw [List.filter_append, List.length_append]
        simp [hupper]
      have hlen' : (arr.set (Reports.get_idx m r c)
          (arr.getD (Reports.get_idx m c r) 0)).length = (m * m).toNat := by
        rw [List.length_set]
        exact hlen
      have hdone' : ∀ x ∈ done ++ [(r, c)],
          (arr.set (Reports.get_idx m r c) (arr.getD (Reports.get_idx m c r) 0)).getD
            (Reports.get_idx m x.1 x.2) 0
            = D.getD (idxOf (sortPair x) (upperCells m)) 0 := by
        intro x hx
        rcases List.mem_append.mp hx with hx | hx
        · rw [hold x hx]
          exact hdone x hx
        · rw [List.mem_singleton] at hx
          subst hx
          rw [list_getD_set_self (by rw [hlen]; exact hidx_lt)]
          have hmirror := hdone (c, r) hcr_done
          simp only [] at hmirror
          rw [hmirror]
          have : sortPair (r, c) = sortPair (c, r) := sortPair_comm r c
          rw [this]
      obtain ⟨arr', hfc, hlen2, hspec⟩ := ih (done ++ [(r, c)]) _ hsplit' hlen' hdone'
      rw [hfilterlen] at hfc
      exact ⟨arr', by rw [hred]; exact hfc, hlen2, hspec⟩

/-- Success and content of `Reports::finalize` when the queue holds at least
one report per upper-triangle cell. -/
theorem finalize_spec (R : Reports) (hlen : (upperCells R.n).length ≤ R.data.length) :
    ∃ R', R.finalize = some R' ∧ R'.n = R.n ∧ R'.data.length = (R.n * R.n).toNat ∧
      ∀ r c : Int, 1 ≤ r → r ≤ R.n → 1 ≤ c → c ≤ R.n →
        R'.data.getD (Reports.get_idx R.n r c) 0
          = R.data.getD (idxOf (sortPair (r, c)) (upperCells R.n)) 0 := by
  obtain ⟨arr', hfc, hlen2, hspec⟩ := fillCells_go R.n R.data hlen (cellList R.n) []
    (List.replicate (R.n * R.n).toNat 0) (by simp) (by simp) (by simp)
  refine ⟨⟨arr', R.n⟩, ?_, rfl, hlen2, ?_⟩
  · rw [Reports.finalize]
    simp only [List.filter_nil, List.length_nil, List.drop_zero] at hfc
    rw [hfc]
    rfl
  · intro r c h1 h2 h3 h4
    exact hspec (r, c) (mem_cellList.mpr ⟨h1, h2, h3, h4⟩)

/-- If the traversal panics (`none`), the queue held fewer reports than the
upper cells of the remaining traversal. -/
theorem fillCells_none_length (m : Int) :
    ∀ (cs : List (Int × Int)) (q arr : List Int),
      fillCells m cs q arr = none →
      q.length < (cs.filter (fun rc => decide (rc.1 ≤ rc.2))).length := by
  intro cs
  induction cs with
  | nil => intro q arr h; cases h
  | cons hd cs ih =>
    obtain ⟨r, c⟩ := hd
    intro q arr h
    by_cases hupper : r ≤ c
    · cases q with
      | nil =>
        rw [List.filter_cons, if_pos (by simpa using hupper)]
        simp
      | cons item q' =>
        have hred : fillCells m ((r, c) :: cs) (item :: q') arr
            = fillCells m cs q' (arr.set (Reports.get_idx m r c) item) := by
          simp [fillCells, hupper]
        rw [hred] at h
        have := ih q' _ h
        rw [List.filter_cons, if_pos (by simpa using hupper)]
        simp only [List.length_cons]
        omega
    · have hred : fillCells m ((r, c) :: cs) q arr
          = fillCells m cs q
            (arr.set (Reports.get_idx m r c) (arr.getD (Reports.get_idx m c r) 0)) := by
        simp [fillCells, hupper]
      rw [hred] at h
      have := ih q _ h
      rw [List.filter_cons, if_neg (by simpa using hupper)]
      omega

/-- `finalize` panics only on report-stream underflow. -/
theorem finalize_none {R : Reports} (h : R.finalize = none) :
    R.data.length < (upperCells R.n).length := by
  rw [Reports.finalize] at h
  rw [Option.map_eq_none'] at h
  exact fillCells_none_length R.n (cellList R.n) _ _ h

/-!
## Entry values of the finalized matrix
-/

/-- The BFS's step count is minimal: at most the edge count of any move path. -/
theorem step_count_min (k : Ability) (s g : Pos) :
    ∃ p, k.find_shortest_path s g = some p ∧
      ∀ q, IsMovePath k g q s g → Path.step_count p ≤ ((q.length - 1 : Nat) : Int) := by
  obtain ⟨p, hp, _, h2⟩ := find_shortest_path_spec k s g
  refine ⟨p, hp, ?_⟩
  intro q hq
  have hreach : Reachable k s g g := ⟨q.length - 1, reach_of_movePath hq⟩
  obtain ⟨hpath, _, hmin⟩ := h2 hreach
  have hlen := hmin q hq
  have hpne := movePath_ne_nil hpath
  rw [step_count_of_ne_nil hpne]
  have h1 : p.length - 1 ≤ q.length - 1 := by omega
  exact_mod_cast h1

theorem mem_knightList {n a b : Int} :
    Ability.mk a b ∈ knightList n ↔ 1 ≤ a ∧ a ≤ b ∧ b < n := by
  rw [knightList_eq, List.mem_map]
  constructor
  · rintro ⟨rc, hrc, he⟩
    rw [mem_upperCells] at hrc
    have h1 : rc.1 = a := by
      have := congrArg Ability.a he
      simpa using this
    have h2 : rc.2 = b := by
      have := congrArg Ability.b he
      simpa using this
    omega
  · rintro ⟨h1, h2, h3⟩
    exact ⟨(a, b), mem_upperCells.mpr ⟨h1, h2, by omega⟩, rfl⟩

/-- The finalized matrix of an in-range `run`: it exists, has `(n-1)²`
entries, and entry `(r, c)` holds the step count of the `(r, c)`-leaper's
shortest path to the corner `(n, n)` of the `n`-board. -/
theorem matrix_entry_eq (n : Int) (h5 : 5 ≤ n) (h25 : n ≤ 25) :
    ∃ R R', run n = some R ∧ R.finalize = some R' ∧ R'.n = n - 1 ∧
      R'.data.length = ((n - 1) * (n - 1)).toNat ∧
      ∀ r c : Int, 1 ≤ r → r ≤ n - 1 → 1 ≤ c → c ≤ n - 1 →
        ∃ p, (Ability.mk r c).find_shortest_path (1, 1) (n, n) = some p ∧
          R'.data.getD (Reports.get_idx (n - 1) r c) 0 = Path.step_count p := by
  obtain ⟨R, hrun, hRn, hfa⟩ := run_spec n h5 h25
  have hklen : (knightList n).length = (upperCells (n - 1)).length := by
    rw [knightList_eq, List.length_map]
  have hfalen := hfa.length_eq
  have hdlen : R.data.length = (upperCells (n - 1)).length := by omega
  have hle : (upperCells R.n).length ≤ R.data.length := by
    rw [hRn]
    omega
  obtain ⟨R', hfin, hR'n, hR'len, hent⟩ := finalize_spec R hle
  rw [hRn] at hent
  refine ⟨R, R', hrun, hfin, by rw [hR'n, hRn], by rw [hR'len, hRn], ?_⟩
  intro r c hr1 hr2 hc1 hc2
  have hup : sortPair (r, c) ∈ upperCells (n - 1) := by
    rw [mem_upperCells, sortPair]
    by_cases hrc : r ≤ c
    · rw [if_pos hrc]
      exact ⟨hr1, hrc, hc2⟩
    · rw [if_neg hrc]
      exact ⟨hc1, by omega, hr2⟩
  have hidxlt := idxOf_lt_length hup
  have hidx1 : idxOf (sortPair (r, c)) (upperCells (n - 1)) < (knightList n).length := by omega
  have hidx2 : idxOf (sortPair (r, c)) (upperCells (n - 1)) < R.data.length := by omega
  have hrel := forall₂_getElem hfa _ hidx1 hidx2
  have hk : (knightList n)[idxOf (sortPair (r, c)) (upperCells (n - 1))]
      = Ability.mk (sortPair (r, c)).1 (sortPair (r, c)).2 := by
    have hmap : (knightList n)[idxOf (sortPair (r, c)) (upperCells (n - 1))]
        = (fun rc => Ability.mk rc.1 rc.2)
            ((upperCells (n - 1))[idxOf (sortPair (r, c)) (upperCells (n - 1))]) := by
      simp only [knightList_eq, List.getElem_map]
    rw [hmap, getElem_idxOf hidxlt]
  rw [hk, report] at hrel
  obtain ⟨ps, hps, hpsv⟩ : ∃ ps,
      (Ability.mk (sortPair (r, c)).1 (sortPair (r, c)).2).find_shortest_path (1, 1) (n, n)
        = some ps ∧ Path.step_count ps
          = R.data[idxOf (sortPair (r, c)) (upperCells (n - 1))] := by
    cases hfsp : (Ability.mk (sortPair (r, c)).1
        (sortPair (r, c)).2).find_shortest_path (1, 1) (n, n) with
    | none => rw [hfsp] at hrel; cases hrel
    | some ps =>
      rw [hfsp, Option.map_some'] at hrel
      exact ⟨ps, rfl, Option.some.inj hrel⟩
  have hgetD : R.data.getD (idxOf (sortPair (r, c)) (upperCells (n - 1))) 0
      = R.data[idxOf (sortPair (r, c)) (upperCells (n - 1))] :=
    List.getD_eq_getElem _ _ hidx2
  have hentry := hent r c hr1 hr2 hc1 hc2
  by_cases hrc : r ≤ c
  · have hseq : sortPair (r, c) = (r, c) := by rw [sortPair, if_pos hrc]
    rw [hseq] at hps
    have hps' : (Ability.mk r c).find_shortest_path (1, 1) (n, n) = some ps := hps
    refine ⟨ps, hps', ?_⟩
    exact hentry.trans (hgetD.trans hpsv.symm)
  · have hseq : sortPair (r, c) = (c, r) := by rw [sortPair, if_neg hrc]
    rw [hseq] at hps
    have hps' : (Ability.mk c r).find_shortest_path (1, 1) (n, n) = some ps := hps
    obtain ⟨pcr, prc, hcr, hrc2, hsw⟩ := step_count_swap c r (1, 1) (n, n)
    have hpe : pcr = ps := by
      rw [hps'] at hcr
      exact (Option.some.inj hcr).symm
    refine ⟨prc, hrc2, ?_⟩
    exact hentry.trans (hgetD.trans
      (hpsv.symm.trans ((congrArg Path.step_count hpe.symm).trans hsw)))

/-!
## Claim theorems (part 2): the report matrix
-/

/-- C2 (counterexample to the claim as stated): the searches of `run n` use
the full `n`-board (`goal = (n, n)`), not an `(n-1)`-board.  Concretely, at
`n = 5` the finalized entry `(1, 1)` is the diagonal leaper's step count to
`(5, 5)` — namely 4 — and not its step count to `(4, 4)` on the claimed
`4 × 4` board, which is 3. -/
theorem C2_counterexample :
    ∃ R R' p, run 5 = some R ∧ R.finalize = some R' ∧
      (Ability.mk 1 1).find_shortest_path (1, 1) (4, 4) = some p ∧
      R'.data.getD (Reports.get_idx 4 1 1) 0 ≠ Path.step_count p := by
  obtain ⟨R, R', hrun, hfin, _, _, hent⟩ := matrix_entry_eq 5 (by decide) (by decide)
  obtain ⟨p5, hp5, hs5⟩ := hent 1 1 (by decide) (by decide) (by decide) (by decide)
  obtain ⟨p5', hp5', hs5'⟩ := diag_fsp_step 5 (by decide)
  obtain ⟨p4, hp4, hs4⟩ := diag_fsp_step 4 (by decide)
  have hpe : p5' = p5 := by
    rw [hp5] at hp5'
    exact (Option.some.inj hp5').symm
  have h54 : (5 : Int) - 1 = 4 := by decide
  rw [h54] at hs5
  refine ⟨R, R', p4, hrun, hfin, hp4, ?_⟩
  rw [hs5, hs4, ← hpe, hs5']
  decide

/-- C2 (amended): for `n` in `[5, 25]`, the finalized matrix of `run n` is an
`m × m` grid with `m = n - 1`, and entry `(r, c)` is the minimum move count
for `Leaper(r, c)` traveling from `(1, 1)` to `(n, n)` on an `n × n` board —
the board side exceeds the matrix dimension by one. -/
theorem C2_matrix_entries (n : Int) (h5 : 5 ≤ n) (h25 : n ≤ 25) :
    ∃ R R', run n = some R ∧ R.finalize = some R' ∧ R'.n = n - 1 ∧
      R'.data.length = ((n - 1) * (n - 1)).toNat ∧
      ∀ r c : Int, 1 ≤ r → r ≤ n - 1 → 1 ≤ c → c ≤ n - 1 →
        ∃ p, (Ability.mk r c).find_shortest_path (1, 1) (n, n) = some p ∧
          R'.data.getD (Reports.get_idx (n - 1) r c) 0 = Path.step_count p ∧
          ∀ q, IsMovePath (Ability.mk r c) (n, n) q (1, 1) (n, n) →
            Path.step_count p ≤ ((q.length - 1 : Nat) : Int) := by
  obtain ⟨R, R', hrun, hfin, hR'n, hR'len, hent⟩ := matrix_entry_eq n h5 h25
  refine ⟨R, R', hrun, hfin, hR'n, hR'len, ?_⟩
  intro r c hr1 hr2 hc1 hc2
  obtain ⟨p, hp, hval⟩ := hent r c hr1 hr2 hc1 hc2
  obtain ⟨p2, hp2, hmin⟩ := step_count_min (Ability.mk r c) (1, 1) (n, n)
  have hpe : p2 = p := by
    rw [hp] at hp2
    exact (Option.some.inj hp2).symm
  rw [hpe] at hmin
  exact ⟨p, hp, hval, hmin⟩

/-- Witness for the amended C2 at `n = 5`. -/
theorem C2_witness :
    ((5 : Int) ≤ 5 ∧ (5 : Int) ≤ 25) ∧
    (∃ R R', run 5 = some R ∧ R.finalize = some R' ∧ R'.n = 5 - 1 ∧
      R'.data.length = ((5 - 1) * (5 - 1) : Int).toNat ∧
      ∀ r c : Int, 1 ≤ r → r ≤ 5 - 1 → 1 ≤ c → c ≤ 5 - 1 →
        ∃ p, (Ability.mk r c).find_shortest_path (1, 1) (5, 5) = some p ∧
          R'.data.getD (Reports.get_idx (5 - 1) r c) 0 = Path.step_count p ∧
          ∀ q, IsMovePath (Ability.mk r c) (5, 5) q (1, 1) (5, 5) →
            Path.step_count p ≤ ((q.length - 1 : Nat) : Int)) :=
  ⟨⟨by decide, by decide⟩, C2_matrix_entries 5 (by decide) (by decide)⟩

/-- C4: for `n` in `[5, 25]`, `run n` succeeds with exactly `(n-1)·n/2`
reports — one per pair `(r, c)` with `1 ≤ r ≤ c < n`, in iteration order
`r` ascending then `c` ascending. -/
theorem C4_run_reports (n : Int) (h5 : 5 ≤ n) (h25 : n ≤ 25) :
    ∃ R, run n = some R ∧
      R.data.length = (n - 1).toNat * n.toNat / 2 ∧
      List.Forall₂ (fun knight v =>
          ∃ p, knight.find_shortest_path (1, 1) (n, n) = some p ∧ v = Path.step_count p)
        (knightList n) R.data ∧
      (∀ a b : Int, Ability.mk a b ∈ knightList n ↔ 1 ≤ a ∧ a ≤ b ∧ b < n) ∧
      (knightList n).Pairwise
        (fun k1 k2 => k1.a < k2.a ∨ (k1.a = k2.a ∧ k1.b < k2.b)) := by
  obtain ⟨R, hrun, hRn, hfa⟩ := run_spec n h5 h25
  refine ⟨R, hrun, ?_, ?_, fun a b => mem_knightList, ?_⟩
  · have hklen : (knightList n).length = (upperCells (n - 1)).length := by
      rw [knightList_eq, List.length_map]
    have hfalen := hfa.length_eq
    have hup := upperCells_length (n - 1)
    have htri := tri_mul_two (n - 1).toNat
    have hsucc : (n - 1).toNat * ((n - 1).toNat + 1) = (n - 1).toNat * n.toNat := by
      have h1 : (n - 1).toNat + 1 = n.toNat := by omega
      rw [h1]
    omega
  · refine List.Forall₂.imp ?_ hfa
    intro knight v hv
    rw [report] at hv
    cases hfsp : knight.find_shortest_path (1, 1) (n, n) with
    | none => rw [hfsp] at hv; cases hv
    | some p =>
      rw [hfsp, Option.map_some'] at hv
      exact ⟨p, rfl, (Option.some.inj hv).symm⟩
  · rw [knightList_eq]
    refine List.Pairwise.map _ ?_
      (List.Pairwise.sublist (List.filter_sublist _) (cellList_pairwise (n - 1)))
    intro a b hab
    exact hab

/-- Witness for C4 at `n = 5`. -/
theorem C4_witness :
    ((5 : Int) ≤ 5 ∧ (5 : Int) ≤ 25) ∧
    (∃ R, run 5 = some R ∧
      R.data.length = ((5 : Int) - 1).toNat * (5 : Int).toNat / 2 ∧
      List.Forall₂ (fun knight v =>
          ∃ p, knight.find_shortest_path (1, 1) (5, 5) = some p ∧ v = Path.step_count p)
        (knightList 5) R.data ∧
      (∀ a b : Int, Ability.mk a b ∈ knightList 5 ↔ 1 ≤ a ∧ a ≤ b ∧ b < 5) ∧
      (knightList 5).Pairwise
        (fun k1 k2 => k1.a < k2.a ∨ (k1.a = k2.a ∧ k1.b < k2.b))) :=
  ⟨⟨by decide, by decide⟩, C4_run_reports 5 (by decide) (by decide)⟩

/-- C5: for `n` in `[5, 25]`, the finalized `(n-1) × (n-1)` matrix of
`run n` is symmetric. -/
theorem C5_matrix_symmetric (n : Int) (h5 : 5 ≤ n) (h25 : n ≤ 25) :
    ∃ R R', run n = some R ∧ R.finalize = some R' ∧
      ∀ r c : Int, 1 ≤ r → r ≤ n - 1 → 1 ≤ c → c ≤ n - 1 →
        R'.data.getD (Reports.get_idx (n - 1) r c) 0
          = R'.data.getD (Reports.get_idx (n - 1) c r) 0 := by
  obtain ⟨R, hrun, hRn, hfa⟩ := run_spec n h5 h25
  have hklen : (knightList n).length = (upperCells (n - 1)).length := by
    rw [knightList_eq, List.length_map]
  have hfalen := hfa.length_eq
  have hle : (upperCells R.n).length ≤ R.data.length := by
    rw [hRn]
    omega
  obtain ⟨R', hfin, hR'n, hR'len, hent⟩ := finalize_spec R hle
  rw [hRn] at hent
  refine ⟨R, R', hrun, hfin, ?_⟩
  intro r c hr1 hr2 hc1 hc2
  rw [hent r c hr1 hr2 hc1 hc2, hent c r hc1 hc2 hr1 hr2, sortPair_comm]

/-- Witness for C5 at `n = 5`. -/
theorem C5_witness :
    ((5 : Int) ≤ 5 ∧ (5 : Int) ≤ 25) ∧
    (∃ R R', run 5 = some R ∧ R.finalize = some R' ∧
      ∀ r c : Int, 1 ≤ r → r ≤ 5 - 1 → 1 ≤ c → c ≤ 5 - 1 →
        R'.data.getD (Reports.get_idx (5 - 1) r c) 0
          = R'.data.getD (Reports.get_idx (5 - 1) c r) 0) :=
  ⟨⟨by decide, by decide⟩, C5_matrix_symmetric 5 (by decide) (by decide)⟩

/-- C9: `Reports::finalize` panics (`none`) only when the report queue holds
fewer than `m·(m+1)/2` reports for its dimension `m`; every `Reports` value
produced by an in-range `run` holds exactly that many, the panic branch is
unreachable on them, and `finalize` fills `m·m` entries. -/
theorem C9_finalize_underflow :
    (∀ R : Reports, R.finalize = none →
        R.data.length < R.n.toNat * (R.n.toNat + 1) / 2) ∧
    (∀ n : Int, 5 ≤ n → n ≤ 25 →
      ∃ R R', run n = some R ∧
        R.data.length = R.n.toNat * (R.n.toNat + 1) / 2 ∧
        R.finalize = some R' ∧ R'.data.length = ((n - 1) * (n - 1)).toNat) := by
  constructor
  · intro R h
    have hlt := finalize_none h
    have hup := upperCells_length R.n
    have htri := tri_mul_two R.n.toNat
    omega
  · intro n h5 h25
    obtain ⟨R, hrun, hRn, hfa⟩ := run_spec n h5 h25
    have hklen : (knightList n).length = (upperCells (n - 1)).length := by
      rw [knightList_eq, List.length_map]
    have hfalen := hfa.length_eq
    have hle : (upperCells R.n).length ≤ R.data.length := by
      rw [hRn]
      omega
    obtain ⟨R', hfin, hR'n, hR'len, _⟩ := finalize_spec R hle
    refine ⟨R, R', hrun, ?_, hfin, by rw [hR'len, hRn]⟩
    have hup := upperCells_length R.n
    have htri := tri_mul_two R.n.toNat
    rw [hRn] at hup htri ⊢
    omega

/-- Witness for C9's run-side conjunct at `n = 5`. -/
theorem C9_witness :
    ((5 : Int) ≤ 5 ∧ (5 : Int) ≤ 25) ∧
    (∃ R R', run 5 = some R ∧
      R.data.length = R.n.toNat * (R.n.toNat + 1) / 2 ∧
      R.finalize = some R' ∧ R'.data.length = (((5 : Int) - 1) * ((5 : Int) - 1)).toNat) :=
  ⟨⟨by decide, by decide⟩, C9_finalize_underflow.2 5 (by decide) (by decide)⟩

end Knights
